import Mathlib

/-!
Verification of the output-coordination core of the `parallel` Go package
(github.com/markdingo/parallel) against its natural-language specification.

The development shallowly embeds the relevant source functions:

* `queue.go` : `destination`, `chunk`, `chunkBuffer.write`, `chunkBuffer.drain`,
  `chunkBuffer.transfer`, `newQueue`, `queue.Write`, `queue.foreground`.
* `tagger.go` : `tagger.Write` (split on newline, tag injection, first-error
  coalescing, byte accounting).
* `options.go` : `config`, the `Option` constructors, `config.checkConflicts`,
  and the error behaviour of `NewGroup`.
* `group.go` : the life-cycle state machine (`checkState`), and the `Wait`
  loop (`closePrintRemove`, `closePrintRemoveContiguousFront`) that flushes
  runners in insertion order.

Byte slices are modelled as `List Nat`, `uint64` arithmetic is modelled on
`Nat` with an explicit `% 2 ^ 64` wherever Go's `uint64` addition can wrap,
and a downstream `io.Writer` is modelled as a state-passing function
`WriteFn υ := υ → List Nat → υ × Nat × Option String` (state, byte count,
error), which mirrors Go's `Write(p []byte) (n int, err error)` with the
writer's mutable state made explicit.
-/

/-- Go `destination` (queue.go): which downstream writer a chunk is bound for. -/
inductive destination where
  | toNowhere
  | toStdout
  | toStderr
deriving DecidableEq, Repr

/-- Go `chunk` (queue.go): the data of a single buffered `Write` call, tagged
with its destination. `dest` is the Go field `where` (a Lean keyword). -/
structure chunk where
  dest : destination
  data : List Nat
deriving DecidableEq, Repr

/-- A downstream writer: Go's `io.Writer` with its mutable state `υ` made
explicit. A call consumes a state and bytes and yields the new state, the
reported byte count `n` and an optional error, exactly the shape of
`Write(p []byte) (n int, err error)`. -/
def WriteFn (υ : Type) : Type := υ → List Nat → υ × Nat × Option String

/-- Go `chunkBuffer.write` (queue.go): append the bytes as a chunk tagged with
the caller's destination and report `(len(p), nil)`. Go copies the bytes; on
immutable lists the copy is the identity. -/
def chunkBufferWrite (buf : List chunk) (d : destination) (p : List Nat) :
    List chunk × Nat × Option String :=
  (buf ++ [⟨d, p⟩], p.length, none)

/-- Go `chunkBuffer.transfer` (queue.go): send every chunk to its destination
writer when that writer is present (`nil` writers are modelled as `none`),
in arrival order, stopping at the first downstream error. -/
def transfer {υ : Type} (out err : Option (WriteFn υ)) :
    List chunk → υ → υ × Option String
  | [], s => (s, none)
  | c :: rest, s =>
    match c.dest, out, err with
    | destination.toStdout, some w, _ =>
      let r := w s c.data
      match r.2.2 with
      | some e => (r.1, some e)
      | none => transfer out err rest r.1
    | destination.toStderr, _, some w =>
      let r := w s c.data
      match r.2.2 with
      | some e => (r.1, some e)
      | none => transfer out err rest r.1
    | _, _, _ => transfer out err rest s

/-- Go `chunkBuffer.drain` (queue.go): with `orderStderr` one stdout-only pass
over the chunks followed by one stderr-only pass, otherwise a single pass to
both writers; transfer errors are ignored and the buffer is always emptied.
Returns the final downstream state and the emptied buffer. -/
def drain {υ : Type} (orderStderr : Bool) (out err : WriteFn υ)
    (chunks : List chunk) (s : υ) : υ × List chunk :=
  if orderStderr then
    let r1 := transfer (some out) none chunks s
    let r2 := transfer none (some err) chunks r1.1
    (r2.1, [])
  else
    let r := transfer (some out) (some err) chunks s
    (r.1, [])

/-- A shared event trace of everything the downstream writers receive:
the writer for destination `d` appends `(d, bytes)` and never fails.
Instantiating both downstream writers over one trace state records the
inter-destination delivery order. -/
def traceW (d : destination) : WriteFn (List (destination × List Nat)) :=
  fun s p => (s ++ [(d, p)], p.length, none)

/-- A downstream writer that always fails without accepting any bytes. -/
def failW : WriteFn (List (destination × List Nat)) :=
  fun s _ => (s, 0, some "boom")

/-- The bytes a trace delivered to destination `d`, concatenated in order. -/
def deliveredTo (d : destination) (tr : List (destination × List Nat)) : List Nat :=
  ((tr.filter (fun ev => ev.1 = d)).map (fun ev => ev.2)).flatten

/-- The trace event a delivered chunk produces. -/
def chunkEv (c : chunk) : destination × List Nat := (c.dest, c.data)

/-- The effect of `transfer` on a single chunk: write it to its destination
writer when present (returning the new state and any error), skip otherwise. -/
def transferStep {υ : Type} (out err : Option (WriteFn υ)) (c : chunk) (s : υ) :
    υ × Option String :=
  match c.dest, out, err with
  | destination.toStdout, some w, _ =>
    let r := w s c.data
    (r.1, r.2.2)
  | destination.toStderr, _, some w =>
    let r := w s c.data
    (r.1, r.2.2)
  | _, _, _ => (s, none)

/-- The two-chunk buffer of the C6 counterexample: a stdout chunk followed by
astderr chunk. -/
def c6chunks : List chunk :=
  [⟨destination.toStdout, [97]⟩, ⟨destination.toStderr, [66]⟩]

/-- Go `queueState` (queue.go). -/
inductive queueState where
  | backgroundWithLimit
  | backgroundNoLimit
  | blocked
  | draining
  | foreground
deriving DecidableEq, Repr

/-- Go `commonQueue` (queue.go): the state shared by a runner's stdout and
stderr queue writers. `out`/`err` are the downstream writers installed by
`newQueue` via `setNext`; `limit`/`used` are Go `uint64` counters modelled on
`Nat` with explicit wrap-around where Go's addition wraps. -/
structure commonQueue (υ : Type) where
  state : queueState
  orderStderr : Bool
  limit : Nat
  out : WriteFn υ
  err : WriteFn υ
  used : Nat
  buf : List chunk

/-- 2^64, the modulus of Go's `uint64` arithmetic. -/
def U64 : Nat := 2 ^ 64

/-- Go `newQueue` (queue.go): a fresh core starts in `backgroundWithLimit`,
demoted to `backgroundNoLimit` when the limit is zero, with empty buffer and a
zero `used` counter. -/
def newQueue {υ : Type} (orderStderr : Bool) (limit : Nat) (out err : WriteFn υ) :
    commonQueue υ :=
  if limit = 0 then
    ⟨queueState.backgroundNoLimit, orderStderr, limit, out, err, 0, []⟩
  else
    ⟨queueState.backgroundWithLimit, orderStderr, limit, out, err, 0, []⟩

/-- The downstream writer of the queue writer for destination `d`: `newQueue`
wires the stdout writer to `out` and the stderr writer to `err`. -/
def queueOut {υ : Type} (cq : commonQueue υ) (d : destination) : WriteFn υ :=
  match d with
  | destination.toStderr => cq.err
  | _ => cq.out

/-- The observable outcome of one `queue.Write` call: either the call returns
`(n, err)` with the new core and downstream state, or the caller parks on the
release channel (after any state transition), or the code panics (the
`draining` state is never visible under the mutex). -/
inductive writeOutcome (υ : Type) where
  | done : Nat → Option String → commonQueue υ → υ → writeOutcome υ
  | blocks : commonQueue υ → writeOutcome υ
  | panics : writeOutcome υ

/-- Go `queue.Write` (queue.go) for the writer tagged `d`, holding the core
mutex. In `backgroundWithLimit` the guard compares `used + uint64(len(p))`
(which wraps modulo 2^64) against `limit`; on acceptance the chunk is
appended by `chunkBuffer.write` and `used` advances by the reported count,
again modulo 2^64. Over the limit the state transitions to `blocked` and the
caller falls through to the parked case. In `foreground` the bytes go to the
writer's own downstream writer. -/
def queueWrite {υ : Type} (cq : commonQueue υ) (d : destination) (p : List Nat)
    (s : υ) : writeOutcome υ :=
  match cq.state with
  | queueState.backgroundWithLimit =>
    if (cq.used + p.length) % U64 ≤ cq.limit then
      let r := chunkBufferWrite cq.buf d p
      writeOutcome.done r.2.1 r.2.2
        { cq with buf := r.1, used := (cq.used + r.2.1) % U64 } s
    else
      writeOutcome.blocks { cq with state := queueState.blocked }
  | queueState.blocked => writeOutcome.blocks cq
  | queueState.backgroundNoLimit =>
    let r := chunkBufferWrite cq.buf d p
    writeOutcome.done r.2.1 r.2.2 { cq with buf := r.1 } s
  | queueState.foreground =>
    let t := queueOut cq d s p
    writeOutcome.done t.2.1 t.2.2 cq t.1
  | queueState.draining => writeOutcome.panics

/-- Go `queue.foreground` (queue.go): idempotent switch to foreground; when
not already foreground it drains the chunk buffer to the downstream writers
(the transient `draining` state is confined to this call) and empties it. -/
def queueForeground {υ : Type} (cq : commonQueue υ) (s : υ) : commonQueue υ × υ :=
  if cq.state = queueState.foreground then (cq, s)
  else
    let r := drain cq.orderStderr cq.out cq.err cq.buf s
    ({ cq with state := queueState.foreground, buf := r.2 }, r.1)

/-- Total bytes currently buffered in a chunk list (Go `commonQueue.len`,
summed over both destinations). -/
def chunksLen (l : List chunk) : Nat := (l.map (fun c => c.data.length)).sum

/-- The queue cores reachable through the API: a fresh core, or the core after
a `Write` call (returning or parking), or the core after a `foreground`
switch. -/
inductive QReach {υ : Type} : commonQueue υ → Prop where
  | init : ∀ (os : Bool) (lim : Nat) (out err : WriteFn υ),
      QReach (newQueue os lim out err)
  | stepDone : ∀ {cq : commonQueue υ} {d p s n e cq' s'}, QReach cq →
      queueWrite cq d p s = writeOutcome.done n e cq' s' → QReach cq'
  | stepBlocks : ∀ {cq : commonQueue υ} {d p s cq'}, QReach cq →
      queueWrite cq d p s = writeOutcome.blocks cq' → QReach cq'
  | stepFg : ∀ {cq : commonQueue υ} (s : υ), QReach cq →
      QReach (queueForeground cq s).1

/-- An accumulating downstream writer over a plain byte-list state: it appends
the bytes, reports the full count and never fails. -/
def accL : WriteFn (List Nat) := fun s p => (s ++ p, p.length, none)

/-- A fresh queue core with limit 10 used to witness the state table. -/
def cq3w : commonQueue (List Nat) := newQueue false 10 accL accL

/-- `2^63 - 1` bytes: the largest write a Go `int` slice length admits. -/
def bigLen : Nat := 2 ^ 63 - 1

/-- A `2^63 - 1`-byte input to `queue.Write`. -/
def bigP : List Nat := List.replicate bigLen 0

/-- A fresh queue core with the maximal `uint64` memory limit. -/
def cqA : commonQueue (List Nat) := newQueue false (2 ^ 64 - 1) accL accL

/-- `cqA` after one accepted `2^63 - 1`-byte background write. -/
def cqB : commonQueue (List Nat) :=
  ⟨queueState.backgroundWithLimit, false, 2 ^ 64 - 1, accL, accL, bigLen,
    [⟨destination.toStdout, bigP⟩]⟩

/-- `cqB` after a second accepted `2^63 - 1`-byte background write:
`used = 2^64 - 2`, two bytes below the limit. -/
def cqC : commonQueue (List Nat) :=
  ⟨queueState.backgroundWithLimit, false, 2 ^ 64 - 1, accL, accL, 2 ^ 64 - 2,
    [⟨destination.toStdout, bigP⟩, ⟨destination.toStdout, bigP⟩]⟩

/-- `cqC` after a three-byte write: Go's `uint64` guard computes
`(2^64 - 2 + 3) mod 2^64 = 1 ≤ limit`, so the write is accepted and `used`
wraps to 1 even though the buffered total now exceeds the limit. -/
def cqD : commonQueue (List Nat) :=
  ⟨queueState.backgroundWithLimit, false, 2 ^ 64 - 1, accL, accL, 1,
    [⟨destination.toStdout, bigP⟩, ⟨destination.toStdout, bigP⟩,
      ⟨destination.toStdout, [7, 8, 9]⟩]⟩

/-- Go `nl` (tagger.go): a one-byte newline slice. -/
def nl : List Nat := [10]

/-- Go `tagger` (tagger.go): the tag bytes and the one bit of state tracking
whether a tag is due before the next byte of output. -/
structure tagger where
  tag : List Nat
  tagPending : Bool
deriving DecidableEq, Repr

/-- Go `bytes.Split(p, nl)`: split at every newline byte; a trailing newline
yields an empty final segment and `splitNl [] = [[]]`. -/
def splitNl : List Nat → List (List Nat)
  | [] => [[]]
  | b :: rest =>
    if b = 10 then [] :: splitNl rest
    else
      match splitNl rest with
      | [] => [[b]]
      | l :: ls => (b :: l) :: ls

/-- First-error coalescing of tagger.go: keep the first non-nil error, drop
later ones. -/
def firstErr (e1 e2 : Option String) : Option String :=
  match e1 with
  | some x => some x
  | none => e2

/-- The line loop of Go `tagger.Write` (tagger.go, current version): for every
segment but the last, emit the tag when pending (bytes not counted), the
segment (counted) and a newline (counted), setting `tagPending`; for a
non-empty last segment emit the tag when pending and the segment (counted)
and clear `tagPending`; an empty last segment sets `tagPending`. Errors are
coalesced to the first one; the downstream-reported counts of segment and
newline sub-writes are always added to `n`, even after an error. Returns the
new `tagPending`, the downstream state, `n` and the coalesced error. -/
def taggerLines {υ : Type} (out : WriteFn υ) (tag : List Nat) :
    List (List Nat) → Bool → υ → Bool × υ × Nat × Option String
  | [], pend, s => (pend, s, 0, none)
  | [ln], pend, s =>
    if ln = [] then (true, s, 0, none)
    else
      let t := if pend then (let r := out s tag; (r.1, r.2.2)) else (s, none)
      let r2 := out t.1 ln
      (false, r2.1, r2.2.1, firstErr t.2 r2.2.2)
  | ln :: l2 :: rest, pend, s =>
    let t := if pend then (let r := out s tag; (r.1, r.2.2)) else (s, none)
    let r2 := out t.1 ln
    let r3 := out r2.1 nl
    let r4 := taggerLines out tag (l2 :: rest) true r3.1
    (r4.1, r4.2.1, r2.2.1 + (r3.2.1 + r4.2.2.1),
      firstErr t.2 (firstErr r2.2.2 (firstErr r3.2.2 r4.2.2.2)))

/-- Go `tagger.Write` (tagger.go, current version): empty input returns
`(0, nil)`; an empty tag passes the bytes straight through; otherwise the
input is split at newlines and processed by the line loop. -/
def taggerWrite {υ : Type} (out : WriteFn υ) (wtr : tagger) (p : List Nat)
    (s : υ) : tagger × υ × Nat × Option String :=
  if p = [] then (wtr, s, 0, none)
  else if wtr.tag = [] then
    let r := out s p
    (wtr, r.1, r.2.1, r.2.2)
  else
    let r := taggerLines out wtr.tag (splitNl p) wtr.tagPending s
    ({ wtr with tagPending := r.1 }, r.2.1, r.2.2.1, r.2.2.2)

/-- The downstream sub-writes one `tagger.Write` call performs on a split
input, each flagged `true` when its reported count contributes to the
returned `n` (segments and newlines) and `false` when it does not (tags). -/
def subLines (tag : List Nat) : List (List Nat) → Bool → List (Bool × List Nat)
  | [], _ => []
  | [ln], pend =>
    if ln = [] then []
    else (if pend then [(false, tag)] else []) ++ [(true, ln)]
  | ln :: l2 :: rest, pend =>
    (if pend then [(false, tag)] else []) ++
      (true, ln) :: (true, nl) :: subLines tag (l2 :: rest) true

/-- The downstream sub-writes of one `tagger.Write` call on raw input `p`. -/
def subWrites (tag : List Nat) (pend : Bool) (p : List Nat) :
    List (Bool × List Nat) :=
  if p = [] then []
  else if tag = [] then [(true, p)]
  else subLines tag (splitNl p) pend

/-- Execute a list of sub-writes downstream: thread the writer state, return
the first error observed and the sum of the downstream-reported counts of the
counted sub-writes. -/
def runSubs {υ : Type} (out : WriteFn υ) :
    υ → List (Bool × List Nat) → υ × Nat × Option String
  | s, [] => (s, 0, none)
  | s, sub :: rest =>
    let r := out s sub.2
    let r2 := runSubs out r.1 rest
    (r2.1, (if sub.1 then r.2.1 else 0) + r2.2.1, firstErr r.2.2 r2.2.2)

/-- `B` with `T` inserted after every newline byte that is followed by at
least one more byte (the spec's tag-injection points, position 0 aside). -/
def insertTags (T : List Nat) : List Nat → List Nat
  | [] => []
  | [b] => [b]
  | b :: c :: rest =>
    if b = 10 then b :: (T ++ insertTags T (c :: rest))
    else b :: insertTags T (c :: rest)

/-- `B` with `T` inserted after every newline byte, a trailing one included:
the open-ended variant used to split `insertTags` across a concatenation. -/
def insertTagsOpen (T : List Nat) : List Nat → List Nat
  | [] => []
  | b :: rest =>
    if b = 10 then b :: (T ++ insertTagsOpen T rest)
    else b :: insertTagsOpen T rest

/-- Whether a tag is pending after the bytes `B` have been written: true for
no bytes at all or when the last byte is a newline. -/
def pendingOf (B : List Nat) : Bool :=
  match B.getLast? with
  | none => true
  | some b => b == 10

/-- The spec's tag-injected stream for tag `T` and total input `B`: `B`
unchanged for an empty tag, nothing for empty input, otherwise `T` at
position 0 and after every newline followed by at least one more byte. -/
def taggedStream (T B : List Nat) : List Nat :=
  if T = [] then B
  else if B = [] then []
  else T ++ insertTags T B

/-- The bytes one `tagger.Write` call emits downstream (no-error downstream):
nothing for empty input, `p` unchanged for an empty tag, otherwise a leading
tag when pending followed by `p` with tags at its interior injection
points. -/
def writeDelta (T : List Nat) (pend : Bool) (p : List Nat) : List Nat :=
  if p = [] then []
  else if T = [] then p
  else (if pend then T else []) ++ insertTags T p

/-- Feed a sequence of `Write` calls to a tagger, accumulating the sum of the
returned input counts. -/
def taggerWriteAll {υ : Type} (out : WriteFn υ) :
    tagger → List (List Nat) → υ → tagger × υ × Nat
  | t, [], s => (t, s, 0)
  | t, p :: ps, s =>
    let r := taggerWrite out t p s
    let r2 := taggerWriteAll out r.1 ps r.2.1
    (r2.1, r2.2.1, r.2.2.1 + r2.2.2)

/-- The counted length of a sub-write list: total bytes of the entries whose
reported counts contribute to the returned `n`. -/
def countedLen : List (Bool × List Nat) → Nat
  | [] => 0
  | sub :: rest => (if sub.1 then sub.2.length else 0) + countedLen rest

/-- The bytes the line loop emits downstream when the downstream writer
accepts everything: per non-final segment a pending tag, the segment and a
newline; for a non-empty final segment a pending tag and the segment. -/
def emitLines (T : List Nat) : List (List Nat) → Bool → List Nat
  | [], _ => []
  | [ln], pend => if ln = [] then [] else (if pend then T else []) ++ ln
  | ln :: l2 :: rest, pend =>
    (if pend then T else []) ++ ln ++ nl ++ emitLines T (l2 :: rest) true

/-- The number of input bytes a split list of segments stands for: segment
lengths plus one newline between consecutive segments. -/
def linesLen : List (List Nat) → Nat
  | [] => 0
  | [ln] => ln.length
  | ln :: l2 :: rest => ln.length + 1 + linesLen (l2 :: rest)

/-- The `tagPending` value the line loop leaves behind: whether the final
segment is empty. -/
def pendOfLines : List (List Nat) → Bool
  | [] => true
  | [ln] => ln.isEmpty
  | _ :: l2 :: rest => pendOfLines (l2 :: rest)

/-- A downstream writer that fails on its first call without accepting any
bytes and accepts everything afterwards; the state counts calls and collects
the accepted bytes. -/
def failFirst : WriteFn (Nat × List Nat) :=
  fun s p =>
    if s.1 = 0 then ((1, s.2), 0, some "tag fail")
    else ((s.1 + 1, s.2 ++ p), p.length, none)

/-- Go `config` (options.go): the assembled Group configuration. The two
sink writers are modelled by presence only: `none` is a nil `io.Writer`. -/
structure config where
  stdout : Option Unit
  stderr : Option Unit
  outSep : List Nat
  errSep : List Nat
  limitMemory : Nat
  limitRunners : Nat
  orderRunners : Bool
  orderStderr : Bool
  passthru : Bool
deriving DecidableEq, Repr

/-- Go `newConfig` (options.go): os.Stdout/os.Stderr (non-nil), empty
separators, zero limits, `OrderRunners(true)`. -/
def newConfig : config :=
  ⟨some (), some (), [], [], 0, 0, true, false, false⟩

/-- The functional options accepted by `NewGroup` (options.go). Every
constructor's `apply` stores its argument and returns a nil error - in
particular `WithStdout`/`WithStderr` store the writer without any nil
check. -/
inductive GOption where
  | withStdout (w : Option Unit)
  | withStderr (w : Option Unit)
  | withStdoutSeparator (sep : List Nat)
  | withStderrSeparator (sep : List Nat)
  | limitActiveRunners (maxActive : Nat)
  | limitMemoryPerRunner (limit : Nat)
  | orderRunners (setting : Bool)
  | orderStderr (setting : Bool)
  | passthru (setting : Bool)
deriving DecidableEq, Repr

/-- Applying one option to the configuration (options.go): each option sets
its field; none can fail. -/
def applyOption (cfg : config) : GOption → config
  | GOption.withStdout w => { cfg with stdout := w }
  | GOption.withStderr w => { cfg with stderr := w }
  | GOption.withStdoutSeparator sep => { cfg with outSep := sep }
  | GOption.withStderrSeparator sep => { cfg with errSep := sep }
  | GOption.limitActiveRunners m => { cfg with limitRunners := m }
  | GOption.limitMemoryPerRunner l => { cfg with limitMemory := l }
  | GOption.orderRunners b => { cfg with orderRunners := b }
  | GOption.orderStderr b => { cfg with orderStderr := b }
  | GOption.passthru b => { cfg with passthru := b }

/-- Go `config.checkConflicts` (options.go): the first matching conflict's
message, sequentially checked; `none` when the configuration is
admissible. -/
def checkConflicts (cfg : config) : Option String :=
  if cfg.limitMemory > 0 ∧ cfg.limitRunners = 0 then
    some "Must set LimitActiveRunners when LimitMemoryPerRunner is set"
  else if cfg.limitMemory > 0 ∧ ¬ cfg.orderRunners then
    some "Cannot set LimitMemoryPerRunner with OrderRunners(false)"
  else if cfg.limitMemory > 0 ∧ cfg.orderStderr then
    some "Cannot set LimitMemoryPerRunner with OrderStderr(true)"
  else if cfg.passthru ∧ cfg.limitMemory > 0 then
    some "Cannot set LimitMemoryPerRunner with Passthru(true)"
  else if cfg.passthru ∧ cfg.orderRunners then
    some "Cannot set OrderRunners with Passthru(true)"
  else if cfg.passthru ∧ cfg.orderStderr then
    some "Cannot set OrderStderr with Passthru(true)"
  else
    none

/-- The error result of Go `NewGroup` (group.go): apply every option to the
default configuration (no option can fail), then `checkConflicts` decides
between an error and a usable Group. -/
def newGroupErr (opts : List GOption) : Option String :=
  checkConflicts (opts.foldl applyOption newConfig)

/-- The configurations `checkConflicts` rejects, as a predicate. -/
def conflictSpec (cfg : config) : Prop :=
  (cfg.limitMemory > 0 ∧
    (cfg.limitRunners = 0 ∨ ¬ cfg.orderRunners ∨ cfg.orderStderr)) ∨
  (cfg.passthru ∧
    (cfg.limitMemory > 0 ∨ cfg.orderRunners ∨ cfg.orderStderr))

/-- Go `groupState` (group.go). -/
inductive groupState where
  | groupIsZero
  | groupIsAdding
  | groupIsRunning
  | groupIsWaiting
  | groupIsDone
deriving DecidableEq, Repr

/-- Go `Group.checkState` (group.go): true when the Group is in the expected
state; any other state panics in Go. -/
def checkState (s expect : groupState) : Bool := s == expect

/-- The observable result of a public Group call: the next life-cycle state,
or a panic when `checkState` fails. -/
inductive lifecycleResult where
  | panicked
  | ok (s : groupState)
deriving DecidableEq, Repr

/-- Go `Group.Add` (group.go): asserts `groupIsAdding` via `checkState` and
leaves the state unchanged (it only appends a runner). -/
def groupAdd (s : groupState) : lifecycleResult :=
  if checkState s groupState.groupIsAdding then lifecycleResult.ok s
  else lifecycleResult.panicked

/-- Go `Group.Run` (group.go): asserts `groupIsAdding` and advances to
`groupIsRunning`. -/
def groupRun (s : groupState) : lifecycleResult :=
  if checkState s groupState.groupIsAdding then
    lifecycleResult.ok groupState.groupIsRunning
  else lifecycleResult.panicked

/-- Go `Group.Wait` (group.go): asserts `groupIsRunning`, runs its loop in
`groupIsWaiting` and returns with the state at `groupIsDone`. -/
def groupWait (s : groupState) : lifecycleResult :=
  if checkState s groupState.groupIsRunning then
    lifecycleResult.ok groupState.groupIsDone
  else lifecycleResult.panicked

/-- The position of a state in the only legal progression
Zero → Adding → Running → Waiting → Done. -/
def groupStateRank : groupState → Nat
  | groupState.groupIsZero => 0
  | groupState.groupIsAdding => 1
  | groupState.groupIsRunning => 2
  | groupState.groupIsWaiting => 3
  | groupState.groupIsDone => 4

/-- Whether a call result only ever advanced the life-cycle state. -/
def advances (s : groupState) : lifecycleResult → Bool
  | lifecycleResult.panicked => true
  | lifecycleResult.ok t => groupStateRank s ≤ groupStateRank t

/-- A runner as the `Wait` loop sees it (runner.go / group.go): its list
identity (`rid` models the `*list.Element` pointer), the bytes its pipeline
still holds for each sink (delivered when the pipeline is closed), the
`canClose` completion mark, and whether `close()` has run. -/
structure mrunner where
  rid : Nat
  outB : List Nat
  errB : List Nat
  canClose : Bool
  closed : Bool
deriving DecidableEq, Repr

/-- The `Wait`-loop state of a Group (group.go): the runner list in insertion
order, the runners already removed from the list (tracking `list.Remove`),
the two sink output streams and the configured separators. -/
structure GState where
  runners : List mrunner
  removed : List mrunner
  outS : List Nat
  errS : List Nat
  outSep : List Nat
  errSep : List Nat
deriving DecidableEq, Repr

/-- The `grp.runners.Remove(e)` step inside `closePrintRemove` (group.go):
the runner leaves the list before its pipeline is closed. -/
def removePhase (g : GState) (r : mrunner) : GState :=
  { g with runners := g.runners.eraseP (fun x => x.rid == r.rid),
           removed := g.removed ++ [r] }

/-- The `rnr.close()` step inside `closePrintRemove` (runner.go close →
pipeline flush): every byte the runner's pipeline holds reaches the group
sinks and the runner is marked closed. -/
def closePhase (g : GState) (r : mrunner) : GState :=
  { g with
      removed := g.removed.map (fun x =>
        if x.rid == r.rid then { x with closed := true } else x),
      outS := g.outS ++ r.outB,
      errS := g.errS ++ r.errB }

/-- The separator step of `closePrintRemove` (group.go): when runners remain
after the removal, the stdout separator then the stderr separator are written
to their sinks (a `Write` happens only for a non-empty separator; on the
streams appending the empty separator is the identity). -/
def sepPhase (g : GState) : GState :=
  if g.runners.isEmpty then g
  else { g with outS := g.outS ++ g.outSep, errS := g.errS ++ g.errSep }

/-- Go `Group.closePrintRemove` (group.go): remove the runner from the list,
close (flush) its pipeline, then emit separators when runners remain. -/
def closePrintRemove (g : GState) (rid : Nat) : GState :=
  match g.runners.find? (fun x => x.rid == rid) with
  | none => g
  | some r => sepPhase (closePhase (removePhase g r) r)

/-- The loop of Go `Group.closePrintRemoveContiguousFront` (group.go), with
explicit fuel: close runners from the front while `canClose` holds, stopping
at the first incomplete runner. Each iteration removes the front runner, so
the list length bounds the iterations. -/
def closeContigAux : Nat → GState → GState
  | 0, g => g
  | Nat.succ fuel, g =>
    match g.runners with
    | [] => g
    | r :: _ =>
      if r.canClose then closeContigAux fuel (closePrintRemove g r.rid)
      else g

/-- Go `Group.closePrintRemoveContiguousFront` (group.go). -/
def closeContig (g : GState) : GState := closeContigAux g.runners.length g

/-- Marking the completed runner (`rnr.canClose = true` in `Wait`,
group.go); identification is by list identity. -/
def markClose (rid : Nat) (l : List mrunner) : List mrunner :=
  l.map (fun r => if r.rid == rid then { r with canClose := true } else r)

/-- One iteration of the `Wait` loop (group.go) with `OrderRunners(true)`:
receive a completed runner, mark it, and close the eligible contiguous
front. -/
def waitStep (g : GState) (rid : Nat) : GState :=
  closeContig { g with runners := markClose rid g.runners }

/-- The whole `Wait` loop over a completion order. -/
def waitAll (g : GState) (order : List Nat) : GState :=
  order.foldl waitStep g

/-- Whether runner `r` is eligible to close under the completion set `E`:
its completion event arrived, or it was already marked. -/
def flagB (E : List Nat) (r : mrunner) : Bool :=
  decide (r.rid ∈ E) || r.canClose

/-- Runner `r` with its completion mark updated to the set `E`. -/
def flagIn (E : List Nat) (r : mrunner) : mrunner :=
  { r with canClose := flagB E r }

/-- Each block followed by the separator: the sink contents after closing
these blocks while further runners remain. -/
def sepAfterAll (sep : List Nat) (Bs : List (List Nat)) : List Nat :=
  (Bs.map (fun B => B ++ sep)).flatten

/-- The sink contents after closing the blocks `Bs`: separators between
consecutive blocks, and a trailing separator exactly when runners remain
(`complete = false`). -/
def joinBlocks (sep : List Nat) (Bs : List (List Nat)) (complete : Bool) :
    List Nat :=
  if complete then List.intercalate sep Bs else sepAfterAll sep Bs

/-- The `Wait`-loop invariant under completion set `E`: the closed runners
are exactly the maximal eligible prefix of the insertion order, the
remaining list carries the marks of `E`, and each sink holds the closed
prefix's blocks joined with separators. -/
def waitInv (rs : List mrunner) (so se o0 e0 : List Nat) (E : List Nat)
    (g : GState) : Prop :=
  g.runners = ((rs.dropWhile (flagB E)).map (flagIn E)) ∧
  g.outS = o0 ++ joinBlocks so ((rs.takeWhile (flagB E)).map mrunner.outB)
    (rs.dropWhile (flagB E)).isEmpty ∧
  g.errS = e0 ++ joinBlocks se ((rs.takeWhile (flagB E)).map mrunner.errB)
    (rs.dropWhile (flagB E)).isEmpty ∧
  g.outSep = so ∧ g.errSep = se

/-- Every runner no longer on the group list has had its pipeline closed
(all of its bytes delivered to the sinks). -/
def removedClosed (g : GState) : Prop := ∀ r ∈ g.removed, r.closed = true

/-- The two runners of the C1 witness: runner 1 writes `"A"`/`"B"`, runner 2
writes `"CD"`/`"E"`. -/
def rsW : List mrunner :=
  [⟨1, [65], [66], false, false⟩, ⟨2, [67, 68], [69], false, false⟩]

/-- A one-runner group whose runner has completed but is not yet closed. -/
def g70 : GState := ⟨[⟨0, [97], [98], true, false⟩], [], [], [], [], []⟩

/-- The runner of `g70`. -/
def r70 : mrunner := ⟨0, [97], [98], true, false⟩

theorem transfer_trace_both (cs : List chunk) (tr : List (destination × List Nat)) :
    transfer (some (traceW destination.toStdout)) (some (traceW destination.toStderr)) cs tr =
      (tr ++ (cs.filter (fun c => c.dest ≠ destination.toNowhere)).map chunkEv, none) := by
  induction cs generalizing tr with
  | nil => simp [transfer]
  | cons c rest ih =>
    cases hd : c.dest <;>
      simp [transfer, hd, traceW, ih, chunkEv, List.append_assoc]

theorem transfer_trace_out (cs : List chunk) (tr : List (destination × List Nat)) :
    transfer (some (traceW destination.toStdout)) none cs tr =
      (tr ++ (cs.filter (fun c => c.dest = destination.toStdout)).map chunkEv, none) := by
  induction cs generalizing tr with
  | nil => simp [transfer]
  | cons c rest ih =>
    cases hd : c.dest <;>
      simp [transfer, hd, traceW, ih, chunkEv, List.append_assoc]

theorem transfer_trace_err (cs : List chunk) (tr : List (destination × List Nat)) :
    transfer none (some (traceW destination.toStderr)) cs tr =
      (tr ++ (cs.filter (fun c => c.dest = destination.toStderr)).map chunkEv, none) := by
  induction cs generalizing tr with
  | nil => simp [transfer]
  | cons c rest ih =>
    cases hd : c.dest <;>
      simp [transfer, hd, traceW, ih, chunkEv, List.append_assoc]

theorem deliveredTo_map_chunkEv (d : destination) (l : List chunk) :
    deliveredTo d (l.map chunkEv) =
      ((l.filter (fun c => c.dest = d)).map chunk.data).flatten := by
  unfold deliveredTo
  rw [List.filter_map, List.map_map]
  rfl

theorem filter_dest_nowhere (d : destination) (hd : d ≠ destination.toNowhere)
    (cs : List chunk) :
    (cs.filter (fun c => c.dest ≠ destination.toNowhere)).filter (fun c => c.dest = d) =
      cs.filter (fun c => c.dest = d) := by
  rw [List.filter_filter]
  refine List.filter_congr ?_
  intro x hx
  by_cases h : x.dest = d
  · simp only [h, decide_eq_true_eq]
    simp [hd]
  · simp [h]

/-- Claim C2: for every finite sequence of chunks appended to a chunk buffer,
draining with `orderStderr = false` delivers to each downstream writer exactly
the concatenation, in arrival order, of the chunk bytes bound for it, and
draining with `orderStderr = true` delivers all stdout chunks in arrival order
first, then all stderr chunks in arrival order. -/
theorem drain_delivery (cs : List chunk) :
    (deliveredTo destination.toStdout
        (drain false (traceW destination.toStdout) (traceW destination.toStderr) cs []).1 =
      ((cs.filter (fun c => c.dest = destination.toStdout)).map chunk.data).flatten ∧
     deliveredTo destination.toStderr
        (drain false (traceW destination.toStdout) (traceW destination.toStderr) cs []).1 =
      ((cs.filter (fun c => c.dest = destination.toStderr)).map chunk.data).flatten) ∧
    (drain true (traceW destination.toStdout) (traceW destination.toStderr) cs []).1 =
      (cs.filter (fun c => c.dest = destination.toStdout)).map chunkEv ++
        (cs.filter (fun c => c.dest = destination.toStderr)).map chunkEv := by
  refine ⟨⟨?_, ?_⟩, ?_⟩
  · simp only [drain, transfer_trace_both, Bool.false_eq_true, if_false,
      List.nil_append]
    rw [deliveredTo_map_chunkEv,
      filter_dest_nowhere destination.toStdout (by simp) cs]
  · simp only [drain, transfer_trace_both, Bool.false_eq_true, if_false,
      List.nil_append]
    rw [deliveredTo_map_chunkEv,
      filter_dest_nowhere destination.toStderr (by simp) cs]
  · simp [drain, transfer_trace_out, transfer_trace_err]

theorem transfer_cons {υ : Type} (out err : Option (WriteFn υ)) (c : chunk)
    (rest : List chunk) (s : υ) :
    transfer out err (c :: rest) s =
      match transferStep out err c s with
      | (s', some e) => (s', some e)
      | (s', none) => transfer out err rest s' := by
  cases hd : c.dest <;> cases out <;> cases err <;>
    simp only [transfer, transferStep, hd] <;>
    first
      | rfl
      | (rename_i w; cases hw : (w s c.data).2.2 <;> simp [hw])
      | (rename_i w w'; cases hw : (w s c.data).2.2 <;> simp [hw])

/-- `transfer` aborts at the first downstream error: its result is that of
transferring a prefix of the chunks, where on success the prefix is the whole
list, and on an error the prefix ends exactly at the first failing chunk -
every chunk before it transferred without error and the failing chunk's own
write produced the returned error and final state, so no later chunk was
touched. -/
theorem transfer_abort {υ : Type} (out err : Option (WriteFn υ))
    (cs : List chunk) (s : υ) :
    ∃ pre post, cs = pre ++ post ∧
      transfer out err cs s = transfer out err pre s ∧
      ((transfer out err pre s).2 = none → post = []) ∧
      (∀ e, (transfer out err pre s).2 = some e →
        ∃ pre₀ c, pre = pre₀ ++ [c] ∧
          (transfer out err pre₀ s).2 = none ∧
          transferStep out err c (transfer out err pre₀ s).1 =
            ((transfer out err pre s).1, some e)) := by
  induction cs generalizing s with
  | nil =>
    refine ⟨[], [], by simp, rfl, fun _ => rfl, ?_⟩
    intro e he
    simp [transfer] at he
  | cons c rest ih =>
    rcases hst : transferStep out err c s with ⟨s', e⟩
    cases e with
    | some e0 =>
      have h1 : transfer out err (c :: rest) s = (s', some e0) := by
        rw [transfer_cons, hst]
      have h1c : transfer out err [c] s = (s', some e0) := by
        rw [transfer_cons, hst]
      refine ⟨[c], rest, by simp, by rw [h1, h1c], ?_, ?_⟩
      · rw [h1c]
        intro h
        cases h
      · intro e he
        rw [h1c] at he
        obtain rfl : e0 = e := by simpa using he
        refine ⟨[], c, rfl, by simp [transfer], ?_⟩
        rw [h1c]
        show transferStep out err c s = (s', some e0)
        exact hst
    | none =>
      have h1 : ∀ l, transfer out err (c :: l) s = transfer out err l s' := by
        intro l
        rw [transfer_cons, hst]
      obtain ⟨pre, post, hsplit, heq, hcond, hfail⟩ := ih s'
      refine ⟨c :: pre, post, by simp [hsplit], ?_, ?_, ?_⟩
      · rw [h1 rest, h1 pre]
        exact heq
      · rw [h1 pre]
        exact hcond
      · intro e he
        rw [h1 pre] at he
        obtain ⟨pre₀, c', hpe, hnone, hstep⟩ := hfail e he
        refine ⟨c :: pre₀, c', by simp [hpe], ?_, ?_⟩
        · rw [h1 pre₀]
          exact hnone
        · rw [h1 pre₀, h1 pre]
          exact hstep

/-- Claim C6 (amended): a downstream write error aborts the transfer pass in
which it occurs: the pass's result is that of a prefix of the chunks which,
when an error is returned, ends exactly at the first failing chunk - every
chunk before it transferred without error, the failing chunk's own write
produced the returned error and final state, and no chunk after it was
touched in that pass - and which, on success, is the whole list. With
`orderStderr = false` the drain is that single two-destination pass, so
nothing after the failing chunk is delivered on either destination; with
`orderStderr = true` the stdout pass and the stderr pass abort independently
of one another. After `drain` the buffer is empty regardless of outcome. -/
theorem drain_abort (out err : WriteFn (List (destination × List Nat)))
    (cs : List chunk) (s : List (destination × List Nat)) :
    ((drain false out err cs s).2 = [] ∧ (drain true out err cs s).2 = []) ∧
    (∃ pre post, cs = pre ++ post ∧
      (drain false out err cs s).1 = (transfer (some out) (some err) pre s).1 ∧
      ((transfer (some out) (some err) pre s).2 = none → post = []) ∧
      (∀ e, (transfer (some out) (some err) pre s).2 = some e →
        ∃ pre₀ c, pre = pre₀ ++ [c] ∧
          (transfer (some out) (some err) pre₀ s).2 = none ∧
          transferStep (some out) (some err) c
              (transfer (some out) (some err) pre₀ s).1 =
            ((transfer (some out) (some err) pre s).1, some e))) ∧
    (∃ pre1 post1 pre2 post2, cs = pre1 ++ post1 ∧ cs = pre2 ++ post2 ∧
      (drain true out err cs s).1 =
        (transfer none (some err) pre2 (transfer (some out) none pre1 s).1).1 ∧
      ((transfer (some out) none pre1 s).2 = none → post1 = []) ∧
      (∀ e, (transfer (some out) none pre1 s).2 = some e →
        ∃ pre₀ c, pre1 = pre₀ ++ [c] ∧
          (transfer (some out) none pre₀ s).2 = none ∧
          transferStep (some out) none c (transfer (some out) none pre₀ s).1 =
            ((transfer (some out) none pre1 s).1, some e)) ∧
      ((transfer none (some err) pre2
          (transfer (some out) none pre1 s).1).2 = none → post2 = []) ∧
      (∀ e, (transfer none (some err) pre2
          (transfer (some out) none pre1 s).1).2 = some e →
        ∃ pre₀ c, pre2 = pre₀ ++ [c] ∧
          (transfer none (some err) pre₀
            (transfer (some out) none pre1 s).1).2 = none ∧
          transferStep none (some err) c
              (transfer none (some err) pre₀
                (transfer (some out) none pre1 s).1).1 =
            ((transfer none (some err) pre2
              (transfer (some out) none pre1 s).1).1, some e))) := by
  refine ⟨⟨by simp [drain], by simp [drain]⟩, ?_, ?_⟩
  · obtain ⟨pre, post, hsplit, heq, hcond, hfail⟩ :=
      transfer_abort (some out) (some err) cs s
    exact ⟨pre, post, hsplit, by simp [drain, heq], hcond, hfail⟩
  · obtain ⟨pre1, post1, hsplit1, heq1, hcond1, hfail1⟩ :=
      transfer_abort (some out) none cs s
    obtain ⟨pre2, post2, hsplit2, heq2, hcond2, hfail2⟩ :=
      transfer_abort none (some err) cs (transfer (some out) none cs s).1
    refine ⟨pre1, post1, pre2, post2, hsplit1, hsplit2, ?_, hcond1, hfail1,
      ?_, ?_⟩
    · simp only [drain, if_pos]
      rw [heq2, ← heq1]
    · rw [← heq1]
      exact hcond2
    · rw [← heq1]
      exact hfail2

/-- Claim C6 counterexample: with `orderStderr = true`, a stdout writer that
fails on the very first chunk does not stop the stderr chunk that arrived
after it from being delivered in the second pass, contradicting the claim
that no chunk after the failing one (on either destination) is delivered. -/
theorem drain_abort_counterexample :
    (drain true failW (traceW destination.toStderr) c6chunks []).1 =
      [(destination.toStderr, [66])] ∧
    deliveredTo destination.toStderr
      (drain true failW (traceW destination.toStderr) c6chunks []).1 ≠ [] := by
  constructor
  · rfl
  · decide

theorem newQueue_state {υ : Type} (os : Bool) (lim : Nat) (out err : WriteFn υ) :
    (newQueue os lim out err).state =
      if lim = 0 then queueState.backgroundNoLimit
      else queueState.backgroundWithLimit := by
  by_cases h : lim = 0 <;> simp [newQueue, h]

theorem queueWrite_bwl_accept {υ : Type} (cq : commonQueue υ) (d : destination)
    (p : List Nat) (s : υ)
    (hs : cq.state = queueState.backgroundWithLimit)
    (hg : (cq.used + p.length) % U64 ≤ cq.limit) :
    queueWrite cq d p s = writeOutcome.done p.length none
      { cq with buf := cq.buf ++ [⟨d, p⟩], used := (cq.used + p.length) % U64 } s := by
  obtain ⟨st, os, lim, o, e, u, b⟩ := cq
  dsimp only at hs hg ⊢
  subst hs
  dsimp only [queueWrite, chunkBufferWrite]
  rw [if_pos hg]

theorem queueWrite_bwl_over {υ : Type} (cq : commonQueue υ) (d : destination)
    (p : List Nat) (s : υ)
    (hs : cq.state = queueState.backgroundWithLimit)
    (hg : ¬ (cq.used + p.length) % U64 ≤ cq.limit) :
    queueWrite cq d p s =
      writeOutcome.blocks { cq with state := queueState.blocked } := by
  obtain ⟨st, os, lim, o, e, u, b⟩ := cq
  dsimp only at hs hg ⊢
  subst hs
  dsimp only [queueWrite, chunkBufferWrite]
  rw [if_neg hg]

theorem queueWrite_bnl {υ : Type} (cq : commonQueue υ) (d : destination)
    (p : List Nat) (s : υ)
    (hs : cq.state = queueState.backgroundNoLimit) :
    queueWrite cq d p s = writeOutcome.done p.length none
      { cq with buf := cq.buf ++ [⟨d, p⟩] } s := by
  obtain ⟨st, os, lim, o, e, u, b⟩ := cq
  dsimp only at hs ⊢
  subst hs
  dsimp only [queueWrite, chunkBufferWrite]

theorem queueWrite_fg {υ : Type} (cq : commonQueue υ) (d : destination)
    (p : List Nat) (s : υ)
    (hs : cq.state = queueState.foreground) :
    queueWrite cq d p s = writeOutcome.done (queueOut cq d s p).2.1
      (queueOut cq d s p).2.2 cq (queueOut cq d s p).1 := by
  obtain ⟨st, os, lim, o, e, u, b⟩ := cq
  dsimp only at hs ⊢
  subst hs
  dsimp only [queueWrite]

theorem queueWrite_blocked {υ : Type} (cq : commonQueue υ) (d : destination)
    (p : List Nat) (s : υ)
    (hs : cq.state = queueState.blocked) :
    queueWrite cq d p s = writeOutcome.blocks cq := by
  obtain ⟨st, os, lim, o, e, u, b⟩ := cq
  dsimp only at hs ⊢
  subst hs
  dsimp only [queueWrite]

/-- Claim C3 (amended): the queue core's `Write` conforms to the state table,
with the limit guard and the `used` counter computed in Go's wrapping `uint64`
arithmetic: a fresh core is in `backgroundWithLimit` when `limit > 0` and
`backgroundNoLimit` when `limit = 0`; in `backgroundWithLimit`, when
`(used + len(p)) mod 2^64 ≤ limit` the bytes are appended as a chunk tagged
with the caller's destination, `used` advances to that same wrapped sum and
`(len(p), nil)` is returned, otherwise the state transitions to `blocked`; in
`backgroundNoLimit` the bytes are appended and `(len(p), nil)` returned; in
`foreground` the bytes go to the caller's downstream writer and its result is
returned. -/
theorem queueWrite_state_table {υ : Type} (os : Bool) (lim : Nat)
    (wout werr : WriteFn υ) (cq : commonQueue υ) (d : destination)
    (p : List Nat) (s : υ) :
    ((newQueue os lim wout werr).state =
        if lim = 0 then queueState.backgroundNoLimit
        else queueState.backgroundWithLimit) ∧
    (cq.state = queueState.backgroundWithLimit →
      ((cq.used + p.length) % U64 ≤ cq.limit →
        queueWrite cq d p s = writeOutcome.done p.length none
          { cq with buf := cq.buf ++ [⟨d, p⟩],
                    used := (cq.used + p.length) % U64 } s) ∧
      (¬ (cq.used + p.length) % U64 ≤ cq.limit →
        queueWrite cq d p s =
          writeOutcome.blocks { cq with state := queueState.blocked })) ∧
    (cq.state = queueState.backgroundNoLimit →
      queueWrite cq d p s = writeOutcome.done p.length none
        { cq with buf := cq.buf ++ [⟨d, p⟩] } s) ∧
    (cq.state = queueState.foreground →
      queueWrite cq d p s = writeOutcome.done (queueOut cq d s p).2.1
        (queueOut cq d s p).2.2 cq (queueOut cq d s p).1) :=
  ⟨newQueue_state os lim wout werr,
   fun hs => ⟨queueWrite_bwl_accept cq d p s hs, queueWrite_bwl_over cq d p s hs⟩,
   queueWrite_bnl cq d p s,
   queueWrite_fg cq d p s⟩

theorem queueWrite_state_table_witness :
    cq3w.state = queueState.backgroundWithLimit ∧
    (cq3w.used + ([1, 2, 3] : List Nat).length) % U64 ≤ cq3w.limit ∧
    queueWrite cq3w destination.toStdout [1, 2, 3] ([] : List Nat) =
      writeOutcome.done ([1, 2, 3] : List Nat).length none
        { cq3w with buf := cq3w.buf ++ [⟨destination.toStdout, [1, 2, 3]⟩],
                    used := (cq3w.used + ([1, 2, 3] : List Nat).length) % U64 }
        [] := by
  refine ⟨rfl, by decide, ?_⟩
  exact ((queueWrite_state_table false 10 accL accL cq3w destination.toStdout
    [1, 2, 3] []).2.1 rfl).1 (by decide)

theorem cqA_eq : cqA =
    ⟨queueState.backgroundWithLimit, false, 2 ^ 64 - 1, accL, accL, 0, []⟩ := by
  unfold cqA newQueue
  norm_num

theorem bigP_length : bigP.length = bigLen := by
  rw [bigP, List.length_replicate]

theorem stepAB : queueWrite cqA destination.toStdout bigP ([] : List Nat) =
    writeOutcome.done bigP.length none cqB [] := by
  rw [cqA_eq,
    queueWrite_bwl_accept _ _ _ _ rfl (by rw [bigP_length]; norm_num [bigLen, U64])]
  rw [bigP_length]
  norm_num [cqB, bigLen, U64]

theorem stepBC : queueWrite cqB destination.toStdout bigP ([] : List Nat) =
    writeOutcome.done bigP.length none cqC [] := by
  rw [queueWrite_bwl_accept _ _ _ _ rfl
    (by rw [bigP_length]; norm_num [cqB, bigLen, U64])]
  rw [bigP_length]
  norm_num [cqB, cqC, bigLen, U64]

theorem stepCD : queueWrite cqC destination.toStdout [7, 8, 9] ([] : List Nat) =
    writeOutcome.done 3 none cqD [] := by
  rw [queueWrite_bwl_accept _ _ _ _ rfl (by norm_num [cqC, U64])]
  norm_num [cqC, cqD, U64]

theorem queueWrite_done_cases {υ : Type} {cq : commonQueue υ} {d : destination}
    {p : List Nat} {s : υ} {n : Nat} {eo : Option String} {cq' : commonQueue υ}
    {s' : υ} (h : queueWrite cq d p s = writeOutcome.done n eo cq' s') :
    (cq.state = queueState.backgroundWithLimit ∧
      (cq.used + p.length) % U64 ≤ cq.limit ∧ n = p.length ∧ eo = none ∧
      cq' = { cq with buf := cq.buf ++ [⟨d, p⟩],
                      used := (cq.used + p.length) % U64 } ∧ s' = s) ∨
    (cq.state = queueState.backgroundNoLimit ∧ n = p.length ∧ eo = none ∧
      cq' = { cq with buf := cq.buf ++ [⟨d, p⟩] } ∧ s' = s) ∨
    (cq.state = queueState.foreground ∧ cq' = cq) := by
  obtain ⟨st, os, lim, o, e', u, b⟩ := cq
  cases st <;> dsimp only [queueWrite, chunkBufferWrite] at h ⊢
  · split at h
    · rename_i hg
      injection h with h1 h2 h3 h4
      exact Or.inl ⟨rfl, hg, h1.symm, h2.symm, h3.symm, h4.symm⟩
    · exact absurd h (by simp)
  · injection h with h1 h2 h3 h4
    exact Or.inr (Or.inl ⟨rfl, h1.symm, h2.symm, h3.symm, h4.symm⟩)
  · exact absurd h (by simp)
  · exact absurd h (by simp)
  · injection h with h1 h2 h3 h4
    exact Or.inr (Or.inr ⟨rfl, h3.symm⟩)

theorem queueWrite_blocks_state {υ : Type} {cq : commonQueue υ} {d : destination}
    {p : List Nat} {s : υ} {cq' : commonQueue υ}
    (h : queueWrite cq d p s = writeOutcome.blocks cq') :
    cq'.state = queueState.blocked := by
  obtain ⟨st, os, lim, o, e', u, b⟩ := cq
  cases st <;> dsimp only [queueWrite, chunkBufferWrite] at h
  · split at h
    · exact absurd h (by simp)
    · injection h with h1
      rw [← h1]
  · exact absurd h (by simp)
  · injection h with h1
    rw [← h1]
  · exact absurd h (by simp)
  · exact absurd h (by simp)

theorem queueForeground_state {υ : Type} (cq : commonQueue υ) (s : υ) :
    (queueForeground cq s).1.state = queueState.foreground := by
  unfold queueForeground
  split
  · rename_i h
    exact h
  · rfl

theorem chunksLen_append (l : List chunk) (c : chunk) :
    chunksLen (l ++ [c]) = chunksLen l + c.data.length := by
  simp [chunksLen]

/-- Claim C10 (amended): in every reachable queue core in state
`backgroundWithLimit`, the `used` counter equals the total number of buffered
bytes reduced modulo 2^64 (Go's wrapping `uint64` sum) and never exceeds
`limit`; each accepted background write in that state grows the buffered
total by exactly `len(p)` and advances `used` to `(used + len(p)) mod 2^64`.
In `backgroundNoLimit` the counter is not maintained and stays zero while
chunks accumulate. -/
theorem queueUsed_invariant {υ : Type} (cq : commonQueue υ) (h : QReach cq) :
    ((cq.state = queueState.backgroundWithLimit →
        cq.used = chunksLen cq.buf % U64 ∧ cq.used ≤ cq.limit) ∧
      (cq.state = queueState.backgroundNoLimit → cq.used = 0)) ∧
    (∀ (d : destination) (p : List Nat) (s : υ) (n : Nat) (eo : Option String)
        (cq' : commonQueue υ) (s' : υ),
      cq.state = queueState.backgroundWithLimit →
      queueWrite cq d p s = writeOutcome.done n eo cq' s' →
      chunksLen cq'.buf = chunksLen cq.buf + p.length ∧
        cq'.used = (cq.used + p.length) % U64) := by
  refine ⟨?_, ?_⟩
  · induction h with
    | init os lim out err =>
      by_cases hl : lim = 0 <;>
        simp [newQueue, hl, chunksLen]
    | stepDone hr heq ih =>
      rcases queueWrite_done_cases heq with
        ⟨hs, hg, hn, he, hcq, hs'⟩ | ⟨hs, hn, he, hcq, hs'⟩ | ⟨hs, hcq⟩
      · obtain ⟨hused, hle⟩ := ih.1 hs
        subst hcq
        constructor
        · intro _
          constructor
          · simp only [chunksLen_append]
            rw [hused, Nat.mod_add_mod]
          · exact hg
        · intro hbad
          rw [hs] at hbad
          exact absurd hbad (by simp)
      · subst hcq
        constructor
        · intro hbad
          rw [hs] at hbad
          exact absurd hbad (by simp)
        · intro _
          exact ih.2 hs
      · subst hcq
        exact ih
    | stepBlocks hr heq ih =>
      have hst := queueWrite_blocks_state heq
      constructor
      · intro hbad
        rw [hst] at hbad
        exact absurd hbad (by simp)
      · intro hbad
        rw [hst] at hbad
        exact absurd hbad (by simp)
    | @stepFg cqp s hr ih =>
      have hst := queueForeground_state cqp s
      constructor
      · intro hbad
        rw [hst] at hbad
        exact absurd hbad (by simp)
      · intro hbad
        rw [hst] at hbad
        exact absurd hbad (by simp)
  · intro d p s n eo cq' s' hs heq
    rcases queueWrite_done_cases heq with
      ⟨_, hg, hn, he, hcq, hs'⟩ | ⟨hs2, _, _, _, _⟩ | ⟨hs2, _⟩
    · subst hcq
      exact ⟨chunksLen_append _ _, rfl⟩
    · rw [hs] at hs2
      exact absurd hs2 (by simp)
    · rw [hs] at hs2
      exact absurd hs2 (by simp)

theorem queueUsed_invariant_witness :
    cq3w.state = queueState.backgroundWithLimit ∧
    cq3w.used = chunksLen cq3w.buf % U64 ∧ cq3w.used ≤ cq3w.limit :=
  ⟨rfl, (queueUsed_invariant cq3w (QReach.init false 10 accL accL)).1.1 rfl⟩

/-- Claim C10 counterexample: the core `cqD` is reachable (three accepted
background writes from a fresh core with limit `2^64 - 1`) and sits in
`backgroundWithLimit`, yet `used = 1` while the buffer holds `2^64 + 1`
bytes: the counter equals the buffered total only modulo 2^64, because Go's
`uint64` addition wrapped on the third write. -/
theorem queueUsed_invariant_counterexample :
    QReach cqD ∧
    cqD.state = queueState.backgroundWithLimit ∧
    chunksLen cqD.buf = 2 ^ 64 + 1 ∧
    cqD.used ≠ chunksLen cqD.buf := by
  have hreach : QReach cqD := QReach.stepDone (QReach.stepDone (QReach.stepDone
    (QReach.init false (2 ^ 64 - 1) accL accL) stepAB) stepBC) stepCD
  have hlen : chunksLen cqD.buf = 2 ^ 64 + 1 := by
    simp only [cqD, chunksLen, List.map_cons, List.map_nil, List.sum_cons,
      List.sum_nil, bigP_length]
    norm_num [bigLen]
  refine ⟨hreach, rfl, hlen, ?_⟩
  rw [hlen]
  norm_num [cqD]

theorem firstErr_none_right (e : Option String) : firstErr e none = e := by
  cases e <;> rfl

theorem firstErr_none_left (e : Option String) : firstErr none e = e := rfl

theorem taggerLines_runSubs {υ : Type} (out : WriteFn υ) (tag : List Nat)
    (lines : List (List Nat)) (pend : Bool) (s : υ) :
    (taggerLines out tag lines pend s).2 = runSubs out s (subLines tag lines pend) := by
  induction lines generalizing pend s with
  | nil => simp [taggerLines, subLines, runSubs]
  | cons ln rest ih =>
    cases rest with
    | nil =>
      by_cases hln : ln = [] <;> cases pend <;>
        simp [taggerLines, subLines, runSubs, hln, firstErr_none_right,
          firstErr_none_left]
    | cons l2 rest2 =>
      cases pend <;>
        simp [taggerLines, subLines, runSubs, ih, firstErr]

theorem taggerWrite_runSubs {υ : Type} (out : WriteFn υ) (wtr : tagger)
    (p : List Nat) (s : υ) :
    (taggerWrite out wtr p s).2 = runSubs out s (subWrites wtr.tag wtr.tagPending p) := by
  unfold taggerWrite subWrites
  by_cases hp : p = []
  · simp [hp, runSubs]
  · by_cases ht : wtr.tag = []
    · simp [hp, ht, runSubs, firstErr_none_right]
    · simp only [hp, ht, if_false]
      exact taggerLines_runSubs out wtr.tag (splitNl p) wtr.tagPending s

theorem runSubs_accL (subs : List (Bool × List Nat)) (s : List Nat) :
    runSubs accL s subs =
      (s ++ (subs.map (fun x => x.2)).flatten, countedLen subs, none) := by
  induction subs generalizing s with
  | nil => simp [runSubs, countedLen]
  | cons sub rest ih =>
    simp [runSubs, accL, countedLen, firstErr_none_left, ih, List.append_assoc]

theorem subLines_map_flatten (T : List Nat) (lines : List (List Nat))
    (pend : Bool) :
    ((subLines T lines pend).map (fun x => x.2)).flatten = emitLines T lines pend := by
  induction lines generalizing pend with
  | nil => simp [subLines, emitLines]
  | cons ln rest ih =>
    cases rest with
    | nil =>
      by_cases hln : ln = [] <;> cases pend <;>
        simp [subLines, emitLines, hln]
    | cons l2 rest2 =>
      cases pend <;> simp [subLines, emitLines, ih, List.append_assoc]

theorem countedLen_subLines (T : List Nat) (lines : List (List Nat))
    (pend : Bool) :
    countedLen (subLines T lines pend) = linesLen lines := by
  induction lines generalizing pend with
  | nil => simp [subLines, linesLen, countedLen]
  | cons ln rest ih =>
    cases rest with
    | nil =>
      by_cases hln : ln = [] <;> cases pend <;>
        simp [subLines, linesLen, countedLen, hln]
    | cons l2 rest2 =>
      cases pend <;>
        (simp [subLines, linesLen, countedLen, nl, ih]; omega)

theorem taggerLines_pend {υ : Type} (out : WriteFn υ) (tag : List Nat)
    (lines : List (List Nat)) (pend : Bool) (s : υ) (h : lines ≠ []) :
    (taggerLines out tag lines pend s).1 = pendOfLines lines := by
  induction lines generalizing pend s with
  | nil => exact absurd rfl h
  | cons ln rest ih =>
    cases rest with
    | nil =>
      by_cases hln : ln = [] <;> simp [taggerLines, pendOfLines, hln]
    | cons l2 rest2 =>
      simp only [taggerLines, pendOfLines]
      exact ih true _ (by simp)

theorem splitNl_ne_nil (p : List Nat) : splitNl p ≠ [] := by
  cases p with
  | nil => simp [splitNl]
  | cons b rest =>
    by_cases hb : b = 10
    · simp [splitNl, hb]
    · simp only [splitNl, hb, if_false]
      cases h : splitNl rest <;> simp

theorem splitNl_eq_single_empty (p : List Nat) (h : splitNl p = [[]]) :
    p = [] := by
  cases p with
  | nil => rfl
  | cons b rest =>
    by_cases hb : b = 10
    · simp only [splitNl, hb, if_pos] at h
      injection h with h1 h2
      exact absurd h2 (splitNl_ne_nil rest)
    · simp only [splitNl, hb, if_false] at h
      cases hsp : splitNl rest with
      | nil => exact absurd hsp (splitNl_ne_nil rest)
      | cons l ls =>
        rw [hsp] at h
        injection h with h1 h2
        exact absurd h1 (by simp)

theorem linesLen_splitNl (p : List Nat) : linesLen (splitNl p) = p.length := by
  induction p with
  | nil => simp [splitNl, linesLen]
  | cons b rest ih =>
    obtain ⟨l, ls, hsp⟩ := List.exists_cons_of_ne_nil (splitNl_ne_nil rest)
    by_cases hb : b = 10
    · rw [show splitNl (b :: rest) = [] :: splitNl rest by simp [splitNl, hb],
        hsp]
      rw [hsp] at ih
      simp only [linesLen, List.length_cons, List.length_nil] at ih ⊢
      omega
    · rw [show splitNl (b :: rest) =
          match splitNl rest with
          | [] => [[b]]
          | l :: ls => (b :: l) :: ls by simp [splitNl, hb], hsp]
      rw [hsp] at ih
      cases ls with
      | nil =>
        simp only [linesLen, List.length_cons, List.length_nil] at ih ⊢
        omega
      | cons x xs =>
        simp only [linesLen, List.length_cons, List.length_nil] at ih ⊢
        omega

theorem pendingOf_cons_cons (b c : Nat) (rest : List Nat) :
    pendingOf (b :: c :: rest) = pendingOf (c :: rest) := by
  simp [pendingOf, List.getLast?_cons_cons]

theorem pendOfLines_splitNl (p : List Nat) (hp : p ≠ []) :
    pendOfLines (splitNl p) = pendingOf p := by
  induction p with
  | nil => exact absurd rfl hp
  | cons b rest ih =>
    cases rest with
    | nil =>
      by_cases hb : b = 10 <;>
        simp [splitNl, hb, pendOfLines, pendingOf]
    | cons c rest2 =>
      have hne : (c :: rest2 : List Nat) ≠ [] := by simp
      obtain ⟨l, ls, hsp⟩ := List.exists_cons_of_ne_nil (splitNl_ne_nil (c :: rest2))
      rw [pendingOf_cons_cons, ← ih hne]
      by_cases hb : b = 10
      · rw [show splitNl (b :: c :: rest2) = [] :: splitNl (c :: rest2) by
          simp [splitNl, hb], hsp]
        simp [pendOfLines]
      · rw [show splitNl (b :: c :: rest2) =
            match splitNl (c :: rest2) with
            | [] => [[b]]
            | l :: ls => (b :: l) :: ls by simp [splitNl, hb], hsp]
        cases ls with
        | nil =>
          have hlne : l ≠ [] := by
            intro hl
            rw [hl] at hsp
            exact hne (splitNl_eq_single_empty _ hsp)
          simp [pendOfLines, hlne]
        | cons x xs =>
          simp [pendOfLines]

theorem insertTags_append (T B p : List Nat) (hp : p ≠ []) :
    insertTags T (B ++ p) = insertTagsOpen T B ++ insertTags T p := by
  induction B with
  | nil => simp [insertTagsOpen]
  | cons b B' ih =>
    cases B' with
    | nil =>
      obtain ⟨c, rest, rfl⟩ := List.exists_cons_of_ne_nil hp
      by_cases hb : b = 10 <;>
        simp [insertTags, insertTagsOpen, hb, List.append_assoc]
    | cons c B'' =>
      have ih' : insertTags T (c :: (B'' ++ p)) =
          insertTagsOpen T (c :: B'') ++ insertTags T p := by
        simpa using ih
      rw [show ((b :: c :: B'') ++ p) = b :: c :: (B'' ++ p) by simp,
        show insertTags T (b :: c :: (B'' ++ p)) =
          if b = 10 then b :: (T ++ insertTags T (c :: (B'' ++ p)))
          else b :: insertTags T (c :: (B'' ++ p)) from rfl,
        show insertTagsOpen T (b :: c :: B'') =
          if b = 10 then b :: (T ++ insertTagsOpen T (c :: B''))
          else b :: insertTagsOpen T (c :: B'') from rfl, ih']
      by_cases hb : b = 10 <;> simp [hb, List.append_assoc]

theorem insertTagsOpen_closed (T B : List Nat) (hB : B ≠ []) :
    insertTagsOpen T B = insertTags T B ++ (if pendingOf B then T else []) := by
  induction B with
  | nil => exact absurd rfl hB
  | cons b B' ih =>
    cases B' with
    | nil =>
      by_cases hb : b = 10 <;>
        simp [insertTagsOpen, insertTags, pendingOf, hb]
    | cons c B'' =>
      have ih' := ih (by simp)
      rw [show insertTagsOpen T (b :: c :: B'') =
          if b = 10 then b :: (T ++ insertTagsOpen T (c :: B''))
          else b :: insertTagsOpen T (c :: B'') from rfl,
        show insertTags T (b :: c :: B'') =
          if b = 10 then b :: (T ++ insertTags T (c :: B''))
          else b :: insertTags T (c :: B'') from rfl, ih', pendingOf_cons_cons]
      by_cases hb : b = 10 <;> simp [hb, List.append_assoc]

theorem taggedStream_append (T B p : List Nat) :
    taggedStream T (B ++ p) = taggedStream T B ++ writeDelta T (pendingOf B) p := by
  by_cases hT : T = []
  · by_cases hp : p = [] <;> simp [taggedStream, writeDelta, hT, hp]
  · by_cases hp : p = []
    · simp [taggedStream, writeDelta, hp]
    · by_cases hB : B = []
      · simp [taggedStream, writeDelta, hB, hT, hp, pendingOf]
      · have hBp : B ++ p ≠ [] := by simp [hB]
        simp only [taggedStream, writeDelta, hT, hB, hp, hBp, if_false]
        rw [insertTags_append T B p hp, insertTagsOpen_closed T B hB]
        simp [List.append_assoc]

theorem emitLines_splitNl (T : List Nat) (p : List Nat) (pend : Bool)
    (hp : p ≠ []) :
    emitLines T (splitNl p) pend = (if pend then T else []) ++ insertTags T p := by
  induction p generalizing pend with
  | nil => exact absurd rfl hp
  | cons b rest ih =>
    cases rest with
    | nil =>
      by_cases hb : b = 10 <;>
        simp [splitNl, hb, emitLines, insertTags, nl]
    | cons c rest2 =>
      have hne : (c :: rest2 : List Nat) ≠ [] := by simp
      obtain ⟨l, ls, hsp⟩ := List.exists_cons_of_ne_nil (splitNl_ne_nil (c :: rest2))
      by_cases hb : b = 10
      · rw [show splitNl (b :: c :: rest2) = [] :: splitNl (c :: rest2) by
          simp [splitNl, hb], hsp]
        have ihh := ih true hne
        rw [hsp] at ihh
        simp only [emitLines, ihh]
        subst hb
        simp [insertTags, nl]
      · rw [show splitNl (b :: c :: rest2) =
            match splitNl (c :: rest2) with
            | [] => [[b]]
            | l :: ls => (b :: l) :: ls by simp [splitNl, hb], hsp]
        have ihh := ih false hne
        rw [hsp] at ihh
        cases ls with
        | nil =>
          have hlne : l ≠ [] := by
            intro hl
            rw [hl] at hsp
            exact hne (splitNl_eq_single_empty _ hsp)
          have hins : insertTags T (c :: rest2) = l := by
            simp [emitLines, hlne] at ihh
            exact ihh.symm
          rw [show insertTags T (b :: c :: rest2) =
              if b = 10 then b :: (T ++ insertTags T (c :: rest2))
              else b :: insertTags T (c :: rest2) from rfl, if_neg hb, hins]
          simp [emitLines]
        | cons x xs =>
          have hins : insertTags T (c :: rest2) =
              l ++ nl ++ emitLines T (x :: xs) true := by
            simp only [emitLines] at ihh
            simpa [List.append_assoc] using ihh.symm
          rw [show insertTags T (b :: c :: rest2) =
              if b = 10 then b :: (T ++ insertTags T (c :: rest2))
              else b :: insertTags T (c :: rest2) from rfl, if_neg hb, hins]
          simp [emitLines, List.append_assoc]

theorem pendingOf_append (B p : List Nat) (hp : p ≠ []) :
    pendingOf (B ++ p) = pendingOf p := by
  obtain ⟨c, cs, rfl⟩ := List.exists_cons_of_ne_nil hp
  unfold pendingOf
  rw [List.getLast?_append_cons]

theorem taggerWrite_accL (T : List Nat) (pend : Bool) (p : List Nat)
    (s : List Nat) :
    taggerWrite accL ⟨T, pend⟩ p s =
      (⟨T, if p = [] ∨ T = [] then pend else pendingOf p⟩,
        s ++ writeDelta T pend p, p.length, none) := by
  by_cases hp : p = []
  · simp [taggerWrite, writeDelta, hp]
  · by_cases hT : T = []
    · simp [taggerWrite, writeDelta, accL, hp, hT]
    · have h1 : (taggerWrite accL ⟨T, pend⟩ p s).1 = ⟨T, pendingOf p⟩ := by
        simp only [taggerWrite, hp, hT, if_false]
        congr 1
        rw [taggerLines_pend accL T (splitNl p) pend s (splitNl_ne_nil p),
          pendOfLines_splitNl p hp]
      have h2 : (taggerWrite accL ⟨T, pend⟩ p s).2 =
          (s ++ writeDelta T pend p, p.length, none) := by
        rw [taggerWrite_runSubs accL ⟨T, pend⟩ p s]
        rw [show (⟨T, pend⟩ : tagger).tag = T from rfl,
          show (⟨T, pend⟩ : tagger).tagPending = pend from rfl]
        simp only [subWrites, hp, hT, if_false]
        rw [runSubs_accL, subLines_map_flatten, countedLen_subLines,
          linesLen_splitNl, emitLines_splitNl T p pend hp]
        simp [writeDelta, hp, hT]
      calc taggerWrite accL ⟨T, pend⟩ p s
          = ((taggerWrite accL ⟨T, pend⟩ p s).1,
             (taggerWrite accL ⟨T, pend⟩ p s).2) := rfl
        _ = (⟨T, if p = [] ∨ T = [] then pend else pendingOf p⟩,
             s ++ writeDelta T pend p, p.length, none) := by
            rw [h1, h2]
            simp [hp, hT]

theorem taggerWriteAll_notag (ps : List (List Nat)) (pend : Bool)
    (s : List Nat) :
    taggerWriteAll accL ⟨[], pend⟩ ps s =
      (⟨[], pend⟩, s ++ ps.flatten, ps.flatten.length) := by
  induction ps generalizing s with
  | nil => simp [taggerWriteAll]
  | cons p ps ih =>
    simp only [taggerWriteAll]
    rw [taggerWrite_accL]
    by_cases hp : p = [] <;>
      simp [ih, writeDelta, List.append_assoc, hp]

theorem taggerWriteAll_tag (T : List Nat) (hT : T ≠ [])
    (ps : List (List Nat)) :
    ∀ (B s0 : List Nat),
      taggerWriteAll accL ⟨T, pendingOf B⟩ ps (s0 ++ taggedStream T B) =
        (⟨T, pendingOf (B ++ ps.flatten)⟩,
          s0 ++ taggedStream T (B ++ ps.flatten), ps.flatten.length) := by
  induction ps with
  | nil => simp [taggerWriteAll]
  | cons p ps ih =>
    intro B s0
    simp only [taggerWriteAll]
    rw [taggerWrite_accL]
    have hpend : (if p = [] ∨ T = [] then pendingOf B else pendingOf p) =
        pendingOf (B ++ p) := by
      by_cases hp : p = []
      · simp [hp]
      · simp [hp, hT, pendingOf_append B p hp]
    have hstream : (s0 ++ taggedStream T B) ++ writeDelta T (pendingOf B) p =
        s0 ++ taggedStream T (B ++ p) := by
      rw [taggedStream_append T B p, List.append_assoc]
    rw [hpend, hstream]
    have ihh := ih (B ++ p) s0
    rw [ihh]
    simp [List.append_assoc, List.length_append]

theorem taggedStream_nil (T : List Nat) : taggedStream T [] = [] := by
  simp [taggedStream]

/-- Claim C4 (amended): for every tag `T` and every byte sequence `B` split
arbitrarily across successive `Write` calls to a fresh tagger whose
downstream writer accepts everything, the bytes emitted downstream equal:
`B` unchanged when `T` is empty (the write passes straight through); nothing
when `B` is empty; otherwise `B` with `T` inserted at position 0 and
immediately after every newline byte that is followed by at least one more
byte. The sum of the returned input counts equals the length of `B`. -/
theorem tagger_injection (T : List Nat) (ps : List (List Nat)) :
    (taggerWriteAll accL ⟨T, true⟩ ps []).2.1 = taggedStream T ps.flatten ∧
    (taggerWriteAll accL ⟨T, true⟩ ps []).2.2 = ps.flatten.length := by
  by_cases hT : T = []
  · subst hT
    rw [taggerWriteAll_notag]
    simp [taggedStream]
  · have h := taggerWriteAll_tag T hT ps [] []
    rw [show pendingOf [] = true from rfl, taggedStream_nil] at h
    simp only [List.nil_append] at h
    exact ⟨by rw [h], by rw [h]⟩

/-- Claim C4 counterexample: with the empty tag and the one-byte input `"a"`,
`tagger.Write` passes the byte straight through to the downstream writer, so
the emitted stream is `"a"`, not empty as the claim's empty-tag clause
states. -/
theorem tagger_injection_counterexample :
    (taggerWrite accL ⟨[], true⟩ [97] []).2.1 = [97] ∧
    (taggerWrite accL ⟨[], true⟩ [97] []).2.1 ≠ [] := by
  constructor
  · rfl
  · decide

/-- Claim C8 (amended): every `tagger.Write` call is equivalent to executing
its sub-write plan downstream (pending tag, then segment and newline
sub-writes): the error returned is the first downstream error observed, with
later errors dropped, and the returned byte count is the sum of the
downstream-reported counts of the segment and inserted-newline sub-writes -
tag sub-writes are never counted, but sub-writes after the first error still
are, so the count does not stop at the error. -/
theorem tagger_first_error {υ : Type} (out : WriteFn υ) (wtr : tagger)
    (p : List Nat) (s : υ) :
    (taggerWrite out wtr p s).2 =
      runSubs out s (subWrites wtr.tag wtr.tagPending p) :=
  taggerWrite_runSubs out wtr p s

/-- Claim C8 counterexample: tag `"T"`, input `"a\nb"`, and a downstream
writer whose first sub-write (the tag) fails while all later sub-writes
succeed. The first error is returned, but the returned byte count is 3 (all
input bytes, forwarded after the error), not the 0 input bytes processed
before the first error as the claim states. -/
theorem tagger_first_error_counterexample :
    (taggerWrite failFirst ⟨[84], true⟩ [97, 10, 98] (0, [])).2.2.2 =
      some "tag fail" ∧
    (taggerWrite failFirst ⟨[84], true⟩ [97, 10, 98] (0, [])).2.2.1 = 3 ∧
    (taggerWrite failFirst ⟨[84], true⟩ [97, 10, 98] (0, [])).2.2.1 ≠ 0 := by
  refine ⟨?_, ?_, ?_⟩ <;> decide

/-- Claim C5 (amended): Group construction returns an error exactly when the
assembled configuration is rejected by `checkConflicts`: LimitMemoryPerRunner
> 0 combined with LimitActiveRunners = 0, OrderRunners = false or OrderStderr
= true, or Passthru = true combined with LimitMemoryPerRunner > 0,
OrderRunners = true or OrderStderr = true; for every other combination of
options - a nil stdout or stderr writer included - construction succeeds. -/
theorem newGroup_error_iff (opts : List GOption) :
    newGroupErr opts ≠ none ↔ conflictSpec (opts.foldl applyOption newConfig) := by
  unfold newGroupErr conflictSpec
  generalize opts.foldl applyOption newConfig = cfg
  unfold checkConflicts
  split_ifs with h1 h2 h3 h4 h5 h6 <;> simp_all

/-- Claim C5 counterexample: `NewGroup(WithStdout(nil))` succeeds - no nil
check exists anywhere in the options or in `checkConflicts` - although the
claim says a nil sink writer makes construction fail. -/
theorem newGroup_error_counterexample :
    newGroupErr [GOption.withStdout none] = none ∧
    (newGroupErr [GOption.withStdout none]).isNone = true := by
  constructor <;> decide

/-- Claim C9: every out-of-sequence public Group call fails fatally -
Add-after-Run, Run-twice, Wait-before-Run, Wait-twice and Add-after-Wait all
panic via `checkState` - while the legal sequence (Adds in `groupIsAdding`,
then Run, then Wait) does not; and the life-cycle state only ever advances
Adding → Running → (Waiting →) Done. `NewGroup` returns a Group in
`groupIsAdding`. -/
theorem group_lifecycle :
    groupAdd groupState.groupIsRunning = lifecycleResult.panicked ∧
    groupRun groupState.groupIsRunning = lifecycleResult.panicked ∧
    groupWait groupState.groupIsAdding = lifecycleResult.panicked ∧
    groupWait groupState.groupIsDone = lifecycleResult.panicked ∧
    groupAdd groupState.groupIsDone = lifecycleResult.panicked ∧
    groupAdd groupState.groupIsAdding = lifecycleResult.ok groupState.groupIsAdding ∧
    groupRun groupState.groupIsAdding = lifecycleResult.ok groupState.groupIsRunning ∧
    groupWait groupState.groupIsRunning = lifecycleResult.ok groupState.groupIsDone ∧
    ∀ s : groupState,
      advances s (groupAdd s) = true ∧ advances s (groupRun s) = true ∧
      advances s (groupWait s) = true := by
  refine ⟨rfl, rfl, rfl, rfl, rfl, rfl, rfl, rfl, ?_⟩
  intro s
  cases s <;> exact ⟨rfl, rfl, rfl⟩

theorem intercalate_cons_ne (sep B : List Nat) (Bs : List (List Nat))
    (h : Bs ≠ []) :
    List.intercalate sep (B :: Bs) = B ++ sep ++ List.intercalate sep Bs := by
  obtain ⟨C, Cs, rfl⟩ := List.exists_cons_of_ne_nil h
  simp [List.intercalate, List.intersperse]

theorem sepAfterAll_cons (sep B : List Nat) (Bs : List (List Nat)) :
    sepAfterAll sep (B :: Bs) = B ++ sep ++ sepAfterAll sep Bs := by
  simp [sepAfterAll, List.append_assoc]

theorem sepAfterAll_append (sep : List Nat) (Bs Cs : List (List Nat)) :
    sepAfterAll sep (Bs ++ Cs) = sepAfterAll sep Bs ++ sepAfterAll sep Cs := by
  simp [sepAfterAll]

theorem intercalate_sepAfterAll (sep : List Nat) (Bs Cs : List (List Nat))
    (h : Cs ≠ []) :
    List.intercalate sep (Bs ++ Cs) =
      sepAfterAll sep Bs ++ List.intercalate sep Cs := by
  induction Bs with
  | nil => simp [sepAfterAll]
  | cons B Bs ih =>
    rw [List.cons_append, intercalate_cons_ne sep B (Bs ++ Cs) (by simp [h]),
      ih, sepAfterAll_cons]
    simp [List.append_assoc]

theorem joinBlocks_split (sep : List Nat) (Bs Cs : List (List Nat))
    (cmp : Bool) (h : cmp = true → Cs = [] → Bs = []) :
    joinBlocks sep (Bs ++ Cs) cmp =
      sepAfterAll sep Bs ++ joinBlocks sep Cs cmp := by
  cases cmp with
  | false => simp [joinBlocks, sepAfterAll_append]
  | true =>
    by_cases hc : Cs = []
    · rw [h rfl hc, hc]
      simp [joinBlocks, sepAfterAll]
    · simp only [joinBlocks, if_pos]
      exact intercalate_sepAfterAll sep Bs Cs hc

theorem flagB_mono (E : List Nat) (id : Nat) (r : mrunner)
    (h : flagB E r = true) : flagB (id :: E) r = true := by
  simp only [flagB, Bool.or_eq_true, decide_eq_true_eq] at h ⊢
  rcases h with h | h
  · exact Or.inl (List.mem_cons_of_mem id h)
  · exact Or.inr h

theorem flagIn_rid (E : List Nat) (r : mrunner) : (flagIn E r).rid = r.rid := rfl

theorem flagIn_nil (r : mrunner) : flagIn [] r = r := by
  cases r
  simp [flagIn, flagB]

theorem markClose_map_flagIn (id : Nat) (E : List Nat) (l : List mrunner) :
    markClose id (l.map (flagIn E)) = l.map (flagIn (id :: E)) := by
  unfold markClose
  rw [List.map_map]
  refine List.map_congr_left ?_
  intro r _
  by_cases hr : r.rid = id
  · simp [Function.comp, flagIn, flagB, hr, List.mem_cons]
  · simp [Function.comp, flagIn, flagB, hr, List.mem_cons]

theorem takeWhile_all {α : Type} (p : α → Bool) (l : List α)
    (h : ∀ a ∈ l, p a = true) : l.takeWhile p = l := by
  induction l with
  | nil => rfl
  | cons a rest ih =>
    rw [List.takeWhile_cons, if_pos (h a (by simp)),
      ih (fun b hb => h b (by simp [hb]))]

theorem dropWhile_all {α : Type} (p : α → Bool) (l : List α)
    (h : ∀ a ∈ l, p a = true) : l.dropWhile p = [] := by
  induction l with
  | nil => rfl
  | cons a rest ih =>
    rw [List.dropWhile_cons, if_pos (h a (by simp)),
      ih (fun b hb => h b (by simp [hb]))]

theorem dropWhile_dropWhile_of_imp {α : Type} (p q : α → Bool) (l : List α)
    (h : ∀ a, p a = true → q a = true) :
    (l.dropWhile p).dropWhile q = l.dropWhile q := by
  induction l with
  | nil => rfl
  | cons a rest ih =>
    by_cases hp : p a = true
    · rw [List.dropWhile_cons, if_pos hp, ih, List.dropWhile_cons,
        if_pos (h a hp)]
    · rw [List.dropWhile_cons, if_neg hp]

theorem takeWhile_split_of_imp {α : Type} (p q : α → Bool) (l : List α)
    (h : ∀ a, p a = true → q a = true) :
    l.takeWhile q = l.takeWhile p ++ (l.dropWhile p).takeWhile q := by
  induction l with
  | nil => rfl
  | cons a rest ih =>
    by_cases hp : p a = true
    · simp [List.takeWhile_cons, List.dropWhile_cons, hp, h a hp, ih]
    · simp [List.takeWhile_cons, List.dropWhile_cons, hp]

theorem isEmpty_map {α β : Type} (f : α → β) (l : List α) :
    (l.map f).isEmpty = l.isEmpty := by
  cases l <;> rfl

theorem closePrintRemove_head (r : mrunner) (rest R : List mrunner)
    (o e so se : List Nat) :
    closePrintRemove ⟨r :: rest, R, o, e, so, se⟩ r.rid =
      ⟨rest,
        (R ++ [r]).map (fun x =>
          if x.rid == r.rid then { x with closed := true } else x),
        o ++ r.outB ++ (if rest.isEmpty then [] else so),
        e ++ r.errB ++ (if rest.isEmpty then [] else se), so, se⟩ := by
  unfold closePrintRemove
  rw [List.find?_cons_of_pos rest (by simp)]
  dsimp only [removePhase, closePhase, sepPhase]
  rw [List.eraseP_cons_of_pos (by simp)]
  cases rest with
  | nil => simp
  | cons x xs => simp

theorem joinBlocks_step (so B : List Nat) (f : mrunner → List Nat)
    (E : List Nat) (rest : List mrunner) :
    joinBlocks so (B :: (rest.takeWhile (flagB E)).map f)
        (rest.dropWhile (flagB E)).isEmpty =
      B ++ (if rest.isEmpty then [] else so) ++
        joinBlocks so ((rest.takeWhile (flagB E)).map f)
          (rest.dropWhile (flagB E)).isEmpty := by
  cases rest with
  | nil => simp [joinBlocks, List.intercalate]
  | cons x xs =>
    cases hde : (List.dropWhile (flagB E) (x :: xs)).isEmpty with
    | false =>
      simp [joinBlocks, sepAfterAll_cons, List.append_assoc]
    | true =>
      have hds : List.dropWhile (flagB E) (x :: xs) = [] := by
        simpa [List.isEmpty_iff] using hde
      have hts : List.takeWhile (flagB E) (x :: xs) = x :: xs := by
        have h := List.takeWhile_append_dropWhile (flagB E) (x :: xs)
        rw [hds, List.append_nil] at h
        exact h
      rw [hts]
      simp only [joinBlocks, if_pos, List.map_cons, List.isEmpty_cons,
        if_neg, Bool.false_eq_true]
      rw [intercalate_cons_ne so B _ (by simp)]
      simp [List.append_assoc]

theorem closeContigAux_spec (E : List Nat) (so se : List Nat)
    (l : List mrunner) :
    ∀ (fuel : Nat), l.length ≤ fuel → ∀ (R : List mrunner) (o e : List Nat),
    (closeContigAux fuel ⟨l.map (flagIn E), R, o, e, so, se⟩).runners =
        ((l.dropWhile (flagB E)).map (flagIn E)) ∧
    (closeContigAux fuel ⟨l.map (flagIn E), R, o, e, so, se⟩).outS =
        o ++ joinBlocks so ((l.takeWhile (flagB E)).map mrunner.outB)
          (l.dropWhile (flagB E)).isEmpty ∧
    (closeContigAux fuel ⟨l.map (flagIn E), R, o, e, so, se⟩).errS =
        e ++ joinBlocks se ((l.takeWhile (flagB E)).map mrunner.errB)
          (l.dropWhile (flagB E)).isEmpty ∧
    (closeContigAux fuel ⟨l.map (flagIn E), R, o, e, so, se⟩).outSep = so ∧
    (closeContigAux fuel ⟨l.map (flagIn E), R, o, e, so, se⟩).errSep = se := by
  induction l with
  | nil =>
    intro fuel hf R o e
    cases fuel <;>
      simp [closeContigAux, joinBlocks, List.intercalate]
  | cons r rest ih =>
    intro fuel hf R o e
    cases fuel with
    | zero => simp at hf
    | succ f =>
      by_cases hflag : flagB E r = true
      · have hstep : closeContigAux (Nat.succ f)
            ⟨(r :: rest).map (flagIn E), R, o, e, so, se⟩ =
            closeContigAux f (closePrintRemove
              ⟨flagIn E r :: rest.map (flagIn E), R, o, e, so, se⟩
              (flagIn E r).rid) := by
          dsimp only [closeContigAux, List.map_cons]
          rw [if_pos]
          exact hflag
        have hkey := closePrintRemove_head (flagIn E r) (rest.map (flagIn E))
          R o e so se
        rw [hstep, hkey]
        rw [show (flagIn E r).outB = r.outB from rfl,
          show (flagIn E r).errB = r.errB from rfl, isEmpty_map]
        obtain ⟨ih1, ih2, ih3, ih4, ih5⟩ := ih f (by simp at hf ⊢; omega) _
          (o ++ r.outB ++ (if rest.isEmpty then [] else so))
          (e ++ r.errB ++ (if rest.isEmpty then [] else se))
        refine ⟨?_, ?_, ?_, ih4, ih5⟩
        · rw [ih1, List.dropWhile_cons, if_pos hflag]
        · rw [ih2, List.dropWhile_cons, if_pos hflag, List.takeWhile_cons,
            if_pos hflag, List.map_cons, joinBlocks_step so r.outB]
          simp [List.append_assoc]
        · rw [ih3, List.dropWhile_cons, if_pos hflag, List.takeWhile_cons,
            if_pos hflag, List.map_cons, joinBlocks_step se r.errB]
          simp [List.append_assoc]
      · have hstop : closeContigAux (Nat.succ f)
            ⟨(r :: rest).map (flagIn E), R, o, e, so, se⟩ =
            ⟨(r :: rest).map (flagIn E), R, o, e, so, se⟩ := by
          dsimp only [closeContigAux, List.map_cons]
          rw [if_neg]
          show ¬ flagB E r = true
          exact hflag
        rw [hstop]
        rw [List.dropWhile_cons, if_neg hflag, List.takeWhile_cons,
          if_neg hflag]
        refine ⟨rfl, ?_, ?_, rfl, rfl⟩ <;>
          simp [joinBlocks, sepAfterAll]

theorem waitInv_step (rs : List mrunner) (so se o0 e0 : List Nat)
    (E : List Nat) (id : Nat) (g : GState)
    (h : waitInv rs so se o0 e0 E g) :
    waitInv rs so se o0 e0 (id :: E) (waitStep g id) := by
  obtain ⟨h1, h2, h3, h4, h5⟩ := h
  obtain ⟨gr, gm, go, ge, gso, gse⟩ := g
  dsimp only at h1 h2 h3 h4 h5
  subst h1
  subst h2
  subst h3
  have h4' := h4.symm
  have h5' := h5.symm
  subst h4'
  subst h5'
  unfold waitStep closeContig
  dsimp only
  rw [markClose_map_flagIn id E]
  have hA : (rs.dropWhile (flagB E)).dropWhile (flagB (id :: E)) =
      rs.dropWhile (flagB (id :: E)) :=
    dropWhile_dropWhile_of_imp _ _ rs (fun r => flagB_mono E id r)
  have hB : rs.takeWhile (flagB (id :: E)) =
      rs.takeWhile (flagB E) ++
        (rs.dropWhile (flagB E)).takeWhile (flagB (id :: E)) :=
    takeWhile_split_of_imp _ _ rs (fun r => flagB_mono E id r)
  obtain ⟨c1, c2, c3, c4, c5⟩ := closeContigAux_spec (id :: E) so se
    (rs.dropWhile (flagB E))
    (((rs.dropWhile (flagB E)).map (flagIn (id :: E))).length)
    (by simp) gm
    (o0 ++ joinBlocks so ((rs.takeWhile (flagB E)).map mrunner.outB)
      (rs.dropWhile (flagB E)).isEmpty)
    (e0 ++ joinBlocks se ((rs.takeWhile (flagB E)).map mrunner.errB)
      (rs.dropWhile (flagB E)).isEmpty)
  refine ⟨?_, ?_, ?_, c4, c5⟩
  · rw [c1, hA]
  · rw [c2]
    by_cases hl : rs.dropWhile (flagB E) = []
    · rw [hB, hl]
      simp [joinBlocks, hl, ← hA, List.intercalate]
    · have hside : ((rs.dropWhile (flagB E)).dropWhile
          (flagB (id :: E))).isEmpty = true →
          ((rs.dropWhile (flagB E)).takeWhile (flagB (id :: E))).map
            mrunner.outB = [] →
          (rs.takeWhile (flagB E)).map mrunner.outB = [] := by
        intro hcmp hcs
        exfalso
        apply hl
        have hds : (rs.dropWhile (flagB E)).dropWhile (flagB (id :: E)) = [] := by
          simpa [List.isEmpty_iff] using hcmp
        have hts : (rs.dropWhile (flagB E)).takeWhile (flagB (id :: E)) = [] :=
          List.map_eq_nil_iff.mp hcs
        have h := List.takeWhile_append_dropWhile (flagB (id :: E))
          (rs.dropWhile (flagB E))
        rw [hds, hts] at h
        exact h.symm
      rw [hB, List.map_append, ← hA,
        joinBlocks_split so _ _ _ hside,
        show (rs.dropWhile (flagB E)).isEmpty = false by
          simpa [List.isEmpty_iff] using hl]
      simp [joinBlocks, List.append_assoc]
  · rw [c3]
    by_cases hl : rs.dropWhile (flagB E) = []
    · rw [hB, hl]
      simp [joinBlocks, hl, ← hA, List.intercalate]
    · have hside : ((rs.dropWhile (flagB E)).dropWhile
          (flagB (id :: E))).isEmpty = true →
          ((rs.dropWhile (flagB E)).takeWhile (flagB (id :: E))).map
            mrunner.errB = [] →
          (rs.takeWhile (flagB E)).map mrunner.errB = [] := by
        intro hcmp hcs
        exfalso
        apply hl
        have hds : (rs.dropWhile (flagB E)).dropWhile (flagB (id :: E)) = [] := by
          simpa [List.isEmpty_iff] using hcmp
        have hts : (rs.dropWhile (flagB E)).takeWhile (flagB (id :: E)) = [] :=
          List.map_eq_nil_iff.mp hcs
        have h := List.takeWhile_append_dropWhile (flagB (id :: E))
          (rs.dropWhile (flagB E))
        rw [hds, hts] at h
        exact h.symm
      rw [hB, List.map_append, ← hA,
        joinBlocks_split se _ _ _ hside,
        show (rs.dropWhile (flagB E)).isEmpty = false by
          simpa [List.isEmpty_iff] using hl]
      simp [joinBlocks, List.append_assoc]

theorem takeWhile_all_false {α : Type} (p : α → Bool) (l : List α)
    (h : ∀ a ∈ l, p a = false) : l.takeWhile p = [] := by
  cases l with
  | nil => rfl
  | cons a rest => rw [List.takeWhile_cons, if_neg (by simp [h a (by simp)])]

theorem dropWhile_all_false {α : Type} (p : α → Bool) (l : List α)
    (h : ∀ a ∈ l, p a = false) : l.dropWhile p = l := by
  cases l with
  | nil => rfl
  | cons a rest => rw [List.dropWhile_cons, if_neg (by simp [h a (by simp)])]

theorem waitInv_init (rs R0 : List mrunner) (so se : List Nat)
    (hflags : ∀ r ∈ rs, r.canClose = false) :
    waitInv rs so se [] [] [] ⟨rs, R0, [], [], so, se⟩ := by
  have hfb : ∀ r ∈ rs, flagB [] r = false := fun r hr => by
    simp [flagB, hflags r hr]
  have hdw : rs.dropWhile (flagB []) = rs := dropWhile_all_false _ _ hfb
  have htw : rs.takeWhile (flagB []) = [] := takeWhile_all_false _ _ hfb
  refine ⟨?_, ?_, ?_, rfl, rfl⟩
  · rw [hdw, List.map_congr_left (fun r _ => flagIn_nil r)]
    simp
  · rw [htw, hdw]
    cases rs <;> simp [joinBlocks, sepAfterAll, List.intercalate]
  · rw [htw, hdw]
    cases rs <;> simp [joinBlocks, sepAfterAll, List.intercalate]

theorem waitInv_waitAll (rs : List mrunner) (so se o0 e0 : List Nat) :
    ∀ (order : List Nat) (E : List Nat) (g : GState),
    waitInv rs so se o0 e0 E g →
    ∃ E', (∀ i ∈ E, i ∈ E') ∧ (∀ i ∈ order, i ∈ E') ∧
      waitInv rs so se o0 e0 E' (waitAll g order) := by
  intro order
  induction order with
  | nil =>
    intro E g h
    exact ⟨E, fun i hi => hi, by simp, h⟩
  | cons id rest ih =>
    intro E g h
    obtain ⟨E', hE, hrest, hinv⟩ :=
      ih (id :: E) (waitStep g id) (waitInv_step rs so se o0 e0 E id g h)
    refine ⟨E', fun i hi => hE i (by simp [hi]), ?_, ?_⟩
    · intro i hi
      rcases List.mem_cons.mp hi with rfl | hi
      · exact hE i (by simp)
      · exact hrest i hi
    · exact hinv

/-- Claim C1: with `OrderRunners(true)`, for every runner list and every
completion order covering all the runners, the `Wait` loop flushes every
runner and each group sink receives exactly `B_1 ‖ SEP ‖ B_2 ‖ … ‖ B_n` - the
runners' byte blocks in insertion order joined by that sink's separator; the
separator is emitted only between two runners' blocks (`closePrintRemove`
writes it only while runners remain, and `List.intercalate` places it exactly
between consecutive blocks; an empty separator contributes nothing). -/
theorem runner_ordering (rs : List mrunner) (order : List Nat)
    (R0 : List mrunner) (so se : List Nat)
    (hflags : ∀ r ∈ rs, r.canClose = false)
    (hcover : ∀ r ∈ rs, r.rid ∈ order) :
    (waitAll ⟨rs, R0, [], [], so, se⟩ order).runners = [] ∧
    (waitAll ⟨rs, R0, [], [], so, se⟩ order).outS =
      List.intercalate so (rs.map mrunner.outB) ∧
    (waitAll ⟨rs, R0, [], [], so, se⟩ order).errS =
      List.intercalate se (rs.map mrunner.errB) := by
  obtain ⟨E', hE, hcov, hinv⟩ := waitInv_waitAll rs so se [] [] order []
    ⟨rs, R0, [], [], so, se⟩ (waitInv_init rs R0 so se hflags)
  obtain ⟨i1, i2, i3, i4, i5⟩ := hinv
  have hall : ∀ r ∈ rs, flagB E' r = true := fun r hr => by
    simp [flagB, hcov r.rid (hcover r hr)]
  have hdw : rs.dropWhile (flagB E') = [] := dropWhile_all _ _ hall
  have htw : rs.takeWhile (flagB E') = rs := takeWhile_all _ _ hall
  refine ⟨?_, ?_, ?_⟩
  · rw [i1, hdw]
    rfl
  · rw [i2, htw, hdw]
    simp [joinBlocks]
  · rw [i3, htw, hdw]
    simp [joinBlocks]

theorem runner_ordering_witness :
    (∀ r ∈ rsW, r.canClose = false) ∧ (∀ r ∈ rsW, r.rid ∈ [2, 1]) ∧
    (waitAll ⟨rsW, [], [], [], [44], [45]⟩ [2, 1]).runners = [] ∧
    (waitAll ⟨rsW, [], [], [], [44], [45]⟩ [2, 1]).outS = [65, 44, 67, 68] ∧
    (waitAll ⟨rsW, [], [], [], [44], [45]⟩ [2, 1]).errS = [66, 45, 69] := by
  obtain ⟨a1, a2, a3⟩ := runner_ordering rsW [2, 1] [] [44] [45]
    (by decide) (by decide)
  refine ⟨by decide, by decide, a1, ?_, ?_⟩
  · rw [a2]
    decide
  · rw [a3]
    decide

theorem sepPhase_removed (g : GState) : (sepPhase g).removed = g.removed := by
  unfold sepPhase
  split <;> rfl

theorem removedClosed_closePrintRemove (g : GState) (rid : Nat)
    (h : removedClosed g) : removedClosed (closePrintRemove g rid) := by
  unfold closePrintRemove
  cases hf : g.runners.find? (fun x => x.rid == rid) with
  | none => exact h
  | some r =>
    intro x hx
    rw [sepPhase_removed] at hx
    unfold closePhase removePhase at hx
    dsimp only at hx
    simp only [List.mem_map, List.mem_append, List.mem_singleton] at hx
    obtain ⟨y, hy, rfl⟩ := hx
    rcases hy with hy | rfl
    · by_cases hyr : (y.rid == r.rid) = true
      · simp [hyr]
      · simp only [hyr, Bool.false_eq_true, if_false]
        exact h y hy
    · simp

theorem removedClosed_closeContigAux (fuel : Nat) :
    ∀ (g : GState), removedClosed g → removedClosed (closeContigAux fuel g) := by
  induction fuel with
  | zero => exact fun g h => h
  | succ f ih =>
    intro g h
    show removedClosed (closeContigAux (Nat.succ f) g)
    rw [closeContigAux]
    cases hr : g.runners with
    | nil => exact h
    | cons r rest =>
      dsimp only
      by_cases hc : r.canClose = true
      · rw [if_pos hc]
        exact ih _ (removedClosed_closePrintRemove g r.rid h)
      · rw [if_neg hc]
        exact h

theorem removedClosed_waitAll (order : List Nat) :
    ∀ (g : GState), removedClosed g → removedClosed (waitAll g order) := by
  induction order with
  | nil => exact fun g h => h
  | cons id rest ih =>
    intro g h
    show removedClosed (waitAll (waitStep g id) rest)
    refine ih _ ?_
    unfold waitStep closeContig
    exact removedClosed_closeContigAux _ _ h

/-- Claim C7 (amended): inside a single flush, `closePrintRemove` removes the
runner from the group list first and closes its pipeline immediately
afterwards, so between those two steps the runner is briefly absent from the
list with its pipeline still open; at every flush boundary the claimed
invariant holds - after each `closePrintRemove` and after any run of the
`Wait` loop, every runner absent from the list has had its pipeline closed
and all its buffered bytes delivered to the group sinks. -/
theorem removed_runners_closed (g : GState) (rid : Nat) (order : List Nat)
    (h : removedClosed g) :
    removedClosed (closePrintRemove g rid) ∧
    removedClosed (waitAll g order) :=
  ⟨removedClosed_closePrintRemove g rid h, removedClosed_waitAll order g h⟩

theorem removed_runners_closed_witness :
    removedClosed g70 ∧
    removedClosed (closePrintRemove g70 0) ∧
    removedClosed (waitAll g70 [0]) := by
  have h := removed_runners_closed g70 0 [0] (by simp [removedClosed, g70])
  exact ⟨by simp [removedClosed, g70], h.1, h.2⟩

/-- Claim C7 counterexample: the flush of `g70`'s runner passes through the
intermediate state `removePhase g70 r70`, in which the runner has left the
group list while its pipeline is still open (`closed = false`), refuting "at
no point is a runner absent from the list while its pipeline is still open";
only after the subsequent close phase does the invariant hold again. -/
theorem removed_runners_closed_counterexample :
    removedClosed g70 ∧
    ¬ removedClosed (removePhase g70 r70) ∧
    closePrintRemove g70 0 = sepPhase (closePhase (removePhase g70 r70) r70) := by
  refine ⟨by simp [removedClosed, g70], ?_, rfl⟩
  intro hcl
  have := hcl { r70 with closed := false } (by simp [removePhase, g70, r70])
  simp [r70] at this

/-- Claim C3 counterexample: in the reachable core `cqC` (two accepted
`2^63 - 1`-byte writes against the limit `2^64 - 1`), a three-byte write has
`used + len(p) = 2^64 + 1 > limit`, so by the claim's state table it must
transition to `blocked`; instead Go's wrapping `uint64` guard computes
`(used + len(p)) mod 2^64 = 1 ≤ limit` and the write is accepted. -/
theorem queueWrite_state_table_counterexample :
    QReach cqC ∧
    cqC.state = queueState.backgroundWithLimit ∧
    cqC.used + ([7, 8, 9] : List Nat).length > cqC.limit ∧
    queueWrite cqC destination.toStdout [7, 8, 9] ([] : List Nat) =
      writeOutcome.done 3 none cqD [] := by
  refine ⟨?_, rfl, by norm_num [cqC], stepCD⟩
  exact QReach.stepDone
    (QReach.stepDone (QReach.init false (2 ^ 64 - 1) accL accL) stepAB) stepBC
